import Mathlib

/-!
# ID / class checker

A shallow embedding of the two scripts of the repository:

* `check_ids_classes_gui.js`, the command-line checker (pattern-based scan of markup files,
  optional scan of the text of a PDF), and
* `index.js`, the browser checker (structural check of picked files).

JavaScript strings are lists of characters, JavaScript objects are association lists in key
enumeration order, and the regular expressions the program builds are values of a small
pattern type `Re` run by a backtracking matcher.
-/

namespace IdClass

/-! ## Strings -/

/-- A JavaScript string, as the list of its characters. -/
abbrev Str := List Char

/-- The case tables of the platform, which are no part of the repository: the lowering of a
string by `String.prototype.toLowerCase` and the canonicalisation of a character under the `i`
flag of a regular expression (its upper-casing). No other character is canonicalised like the
equals sign. -/
class CaseTables where
  lower : Str → Str
  upper : Char → Char
  upper_eqSign : ∀ c : Char, upper c = upper '=' → c = '='

/-- The case tables on the ASCII letters. They are the platform's on the texts whose cased
letters are all ASCII, and the examples are computed with them. -/
instance asciiTables : CaseTables where
  lower := fun s => s.map Char.toLower
  upper := Char.toUpper
  upper_eqSign := by
    intro e h
    have h0 : Char.toUpper '=' = '=' := by decide
    rw [h0] at h
    by_cases hr : e.toNat ≥ 97 ∧ e.toNat ≤ 122
    · exfalso
      have hu : e.toUpper = Char.ofNat (e.toNat - 32) := by
        unfold Char.toUpper
        simp only [hr, and_self, if_true]
      have h2 : (Char.ofNat (e.toNat - 32)).toNat = 61 := by
        rw [← hu, h]
        rfl
      obtain ⟨h3, h4⟩ := hr
      generalize e.toNat = n at *
      interval_cases n <;> exact absurd h2 (by decide)
    · have hu : e.toUpper = e := by
        unfold Char.toUpper
        simp only [hr, if_false]
      rw [← hu]
      exact h

section Program

variable [CaseTables]

/-- `String.prototype.toLowerCase`, read in the case tables. -/
def toLowerCase (s : Str) : Str := CaseTables.lower s

/-- `String.prototype.startsWith`. -/
def startsWith (s pre : Str) : Bool := pre.isPrefixOf s

/-- `String.prototype.includes`: `sub` starts at some position of `s`. -/
def includes : Str → Str → Bool
  | [], sub => sub.isEmpty
  | c :: cs, sub => sub.isPrefixOf (c :: cs) || includes cs sub

/-- `String.prototype.replace` with a string pattern: only the first occurrence of `pat` is
replaced. -/
def replaceFirst (pat rep : Str) : Str → Str
  | [] => if pat.isEmpty then rep else []
  | c :: cs =>
    if pat.isPrefixOf (c :: cs) then rep ++ (c :: cs).drop pat.length
    else c :: replaceFirst pat rep cs

/-- `path.basename` of a file path returned by `walk` (no trailing separator): the text after
the last `/`. -/
def basename : Str → Str
  | [] => []
  | c :: cs => if cs.contains '/' then basename cs else if c = '/' then cs else c :: cs

/-- The characters `\s` matches, which are also the ones `String.prototype.trim` strips:
white space and line terminators. -/
def isSpace (c : Char) : Bool :=
  let n := c.toNat
  n = 9 || n = 10 || n = 11 || n = 12 || n = 13 || n = 32 || n = 160 || n = 5760 ||
  (8192 ≤ n && n ≤ 8202) || n = 8232 || n = 8233 || n = 8239 || n = 8287 || n = 12288 ||
  n = 65279

/-- `String.prototype.trim`. -/
def trim (s : Str) : Str := ((s.dropWhile isSpace).reverse.dropWhile isSpace).reverse

/-- `content.split(/\r?\n/)`: the lines of a text; a line feed, or a carriage return directly
followed by a line feed, separates two lines. -/
def splitLines : Str → List Str
  | [] => [[]]
  | c :: cs =>
    if c = '\n' then [] :: splitLines cs
    else
      match cs with
      | d :: ds =>
        if c = '\r' ∧ d = '\n' then [] :: splitLines ds
        else
          match splitLines (d :: ds) with
          | [] => [[c]]
          | l :: ls => (c :: l) :: ls
      | [] => [[c]]

/-! ## Objects -/

/-- A JavaScript object with string keys: its entries in enumeration order. -/
abbrev Obj (α : Type) := List (Str × α)

/-- Property read `o[k]`; `none` is `undefined`. -/
def objGet {α : Type} : Obj α → Str → Option α
  | [], _ => none
  | (k1, v) :: t, k => if k1 = k then some v else objGet t k

/-- Property write `o[k] = v`: an existing key keeps its place, a new key goes last. -/
def objSet {α : Type} : Obj α → Str → α → Obj α
  | [], k, v => [(k, v)]
  | (k1, v1) :: t, k, v => if k1 = k then (k1, v) :: t else (k1, v1) :: objSet t k v

/-- Property write `o[k] = v` with a key read from the specification: for the key `__proto__`
JavaScript sets the prototype of `o` instead, and `o` gets no property. -/
def objAssign {α : Type} (o : Obj α) (k : Str) (v : α) : Obj α :=
  if k = "__proto__".toList then o else objSet o k v

/-- `Object.keys(o)`. -/
def objKeys {α : Type} (o : Obj α) : List Str := o.map Prod.fst

/-- The statement `o[k].push(x)` for an object of arrays. The program only pushes to keys it
has initialised; an object without the key is left as it is. -/
def objPush {β : Type} : Obj (List β) → Str → β → Obj (List β)
  | [], _, _ => []
  | (k1, l) :: t, k, x => if k1 = k then (k1, l ++ [x]) :: t else (k1, l) :: objPush t k x

/-- `Array.from(new Set(xs))`: the first occurrence of every element, in order. -/
def arrayFromSet (xs : List Str) : List Str :=
  xs.foldl (fun acc x => if x ∈ acc then acc else acc ++ [x]) []

/-! ## Regular expressions

The `RegExp` engine is the JavaScript runtime's. It is modelled for the patterns the program
builds: pattern characters, the classes `\s`, `["']` and `[^"']`, a star on a class, the
assertions `^`, `$` (no `m` flag) and `\b`, sequence and alternation, with the `i` flag. The
flag changes the comparison of pattern characters only: the classes and `\b` hold no cased
character. -/

/-- A pattern. -/
inductive Re where
  | eps : Re
  | chr (c : Char) : Re
  | set (p : Char → Bool) : Re
  | many (p : Char → Bool) : Re
  | bol : Re
  | eol : Re
  | wordB : Re
  | seq (a b : Re) : Re
  | alt (a b : Re) : Re

/-- Canonicalisation of a character under the `i` flag, read in the case tables. -/
def canonicalize (c : Char) : Char := CaseTables.upper c

/-- Comparison of a pattern character with an input character. -/
def sameChar (ignoreCase : Bool) (a b : Char) : Bool :=
  if ignoreCase then canonicalize a == canonicalize b else a == b

/-- The characters `\w` matches. -/
def isWordChar (c : Char) : Bool := c.isAlphanum || c = '_'

/-- Whether the character next to a position (none at an edge of the input) is a word
character. -/
def isWordAt : Option Char → Bool
  | none => false
  | some c => isWordChar c

/-- Ways for `p*` to match at the start of `s`: every prefix of the longest run, longest
first. A position is the character before it (none at the start of the input) and the text
after it. -/
def manyEnds (p : Char → Bool) : Option Char → Str → List (Option Char × Str)
  | prev, [] => [(prev, [])]
  | prev, c :: cs => if p c then manyEnds p (some c) cs ++ [(prev, c :: cs)] else [(prev, c :: cs)]

/-- All the positions at which a match of the pattern that starts at the given position can
end, in backtracking order. -/
def Re.ends (ignoreCase : Bool) : Re → Option Char → Str → List (Option Char × Str)
  | .eps, prev, s => [(prev, s)]
  | .chr c, _, s =>
    match s with
    | d :: t => if sameChar ignoreCase c d then [(some d, t)] else []
    | [] => []
  | .set p, _, s =>
    match s with
    | d :: t => if p d then [(some d, t)] else []
    | [] => []
  | .many p, prev, s => manyEnds p prev s
  | .bol, prev, s => if prev.isNone then [(prev, s)] else []
  | .eol, prev, s => if s.isEmpty then [(prev, s)] else []
  | .wordB, prev, s => if isWordAt prev != isWordAt s.head? then [(prev, s)] else []
  | .seq a b, prev, s => (a.ends ignoreCase prev s).flatMap (fun x => b.ends ignoreCase x.1 x.2)
  | .alt a b, prev, s => a.ends ignoreCase prev s ++ b.ends ignoreCase prev s

/-- Search for a match starting at the given position or at any later one. -/
def searchFrom (ignoreCase : Bool) (r : Re) : Option Char → Str → Bool
  | prev, [] => !(r.ends ignoreCase prev []).isEmpty
  | prev, c :: cs => !(r.ends ignoreCase prev (c :: cs)).isEmpty || searchFrom ignoreCase r (some c) cs

/-- A compiled regular expression: the pattern and the `i` flag. -/
structure RegExp where
  pattern : Re
  ignoreCase : Bool

/-- `RegExp.prototype.test` (the program's expressions have no `g` flag, so no state). -/
def RegExp.test (re : RegExp) (s : Str) : Bool := searchFrom re.ignoreCase re.pattern none s

/-- The pattern that matches the given characters one after the other. -/
def litSeq : Str → Re
  | [] => Re.eps
  | c :: cs => Re.seq (Re.chr c) (litSeq cs)

/-- Sequence of a list of patterns. -/
def seqAll : List Re → Re
  | [] => Re.eps
  | r :: rs => Re.seq r (seqAll rs)

/-- The syntax characters of the pattern grammar. -/
def isSyntaxCharacter (c : Char) : Bool :=
  c = '^' || c = '$' || c = '\\' || c = '.' || c = '*' || c = '+' || c = '?' || c = '(' ||
  c = ')' || c = '[' || c = ']' || c = '\x7b' || c = '\x7d' || c = '|'

/-- How the `RegExp` constructor reads pattern text made of pattern characters and of syntax
characters escaped by a backslash: the text it matches literally. Text with a bare syntax
character or another escape has a reading that is not modelled (`none`). -/
def readLiteral : Str → Option Str
  | [] => some []
  | c :: cs =>
    if c = '\\' then
      match cs with
      | d :: ds => if isSyntaxCharacter d then (readLiteral ds).map (d :: ·) else none
      | [] => none
    else if isSyntaxCharacter c then none
    else (readLiteral cs).map (c :: ·)

/-- The pattern for text interpolated in a template of pattern source. Text outside what
`readLiteral` covers gives a pattern without a match. -/
def interpolated (source : Str) : Re :=
  match readLiteral source with
  | some s => litSeq s
  | none => Re.set (fun _ => false)

/-- The class `["']`. -/
def isQuote (c : Char) : Bool := c = '"' || c = '\''

/-- The class `[^"']`. -/
def notQuote (c : Char) : Bool := !isQuote c

/-! ## check_ids_classes_gui.js -/

/-- The source function `escapeRegExp`:
`string.replace(/[.*+?^$\x7b\x7d()|[\]\\]/g, '\\$&')` puts a backslash before every character
of the class. -/
def escapeRegExp : Str → Str
  | [] => []
  | c :: cs =>
    if c = '.' ∨ c = '*' ∨ c = '+' ∨ c = '?' ∨ c = '^' ∨ c = '$' ∨ c = '\x7b' ∨ c = '\x7d' ∨
        c = '(' ∨ c = ')' ∨ c = '|' ∨ c = '[' ∨ c = ']' ∨ c = '\\' then
      '\\' :: c :: escapeRegExp cs
    else c :: escapeRegExp cs

/-- The source function `idRegex`: the pattern `id\s*=\s*["']ID["']`, with the `i` flag unless
the run is case sensitive. -/
def idRegex (caseSensitive : Bool) (id : Str) : RegExp :=
  { pattern := seqAll [Re.chr 'i', Re.chr 'd', Re.many isSpace, Re.chr '=', Re.many isSpace,
      Re.set isQuote, interpolated (escapeRegExp id), Re.set isQuote]
    ignoreCase := !caseSensitive }

/-- The source function `classRegex`: the pattern
`class\s*=\s*["'][^"']*(?:^|\s)CLS(?:\s|$)[^"']*["']`, with the `i` flag unless the run is case
sensitive. -/
def classRegex (caseSensitive : Bool) (cls : Str) : RegExp :=
  { pattern := seqAll [Re.chr 'c', Re.chr 'l', Re.chr 'a', Re.chr 's', Re.chr 's',
      Re.many isSpace, Re.chr '=', Re.many isSpace, Re.set isQuote, Re.many notQuote,
      Re.alt Re.bol (Re.set isSpace), interpolated (escapeRegExp cls),
      Re.alt (Re.set isSpace) Re.eol, Re.many notQuote, Re.set isQuote]
    ignoreCase := !caseSensitive }

/-- The expression built for the PDF text: the pattern `\bX\b`. -/
def wordRegex (caseSensitive : Bool) (x : Str) : RegExp :=
  { pattern := seqAll [Re.wordB, interpolated (escapeRegExp x), Re.wordB]
    ignoreCase := !caseSensitive }

/-- An entry of the specification document: the `ids` and `classes` arrays (`none` when the
field is absent or not an array) and, read for `meta` only, the truth of `case_sensitive`. -/
structure SpecEntry where
  ids : Option (List Str)
  classes : Option (List Str)
  case_sensitive : Bool

/-- The expected ids and classes of a page. -/
structure Expected where
  ids : List Str
  classes : List Str

/-- The constant `caseSensitive`: `!!(spec.meta && spec.meta.case_sensitive)`. -/
def caseSensitive (spec : Obj SpecEntry) : Bool :=
  match objGet spec "meta".toList with
  | some m => m.case_sensitive
  | none => false

/-- The first loop over the specification: every key but `meta` and `common` becomes a page
with its own arrays (empty when the field is not an array). -/
def declaredPages (spec : Obj SpecEntry) : Obj Expected :=
  spec.foldl (fun pages kv =>
    if kv.1 = "meta".toList ∨ kv.1 = "common".toList then pages
    else objAssign pages kv.1 { ids := kv.2.ids.getD [], classes := kv.2.classes.getD [] }) []

/-- The constant `pages`: the declared pages, each merged with `spec.common` when the
specification has one. -/
def pages (spec : Obj SpecEntry) : Obj Expected :=
  match objGet spec "common".toList with
  | some common =>
    (declaredPages spec).map (fun pe =>
      (pe.1, { ids := arrayFromSet (pe.2.ids ++ common.ids.getD []),
               classes := arrayFromSet (pe.2.classes ++ common.classes.getD []) }))
  | none => declaredPages spec

/-- The filter of the first filename rule: the lower-cased base name equals the lower-cased
page key, or that key lower-cased once more, or starts with the lower-cased key without its
first `.php`, lower-cased once more. -/
def nameMatches (lowerName : Str) (f : Str) : Bool :=
  let base := toLowerCase (basename f)
  base == lowerName || base == toLowerCase lowerName ||
    startsWith base (toLowerCase (replaceFirst ".php".toList [] lowerName))

/-- The test of the second filename rule: the lower-cased base name contains the lower-cased
key without its first `.php`. -/
def nameContains (lowerName : Str) (f : Str) : Bool :=
  includes (toLowerCase (basename f)) (toLowerCase (replaceFirst ".php".toList [] lowerName))

/-- The array `candidates` of a page: the files the first rule keeps and, when there is none,
the files the second rule keeps. -/
def candidates (files : List Str) (pageName : Str) : List Str :=
  let lowerName := toLowerCase pageName
  let first := files.filter (nameMatches lowerName)
  if first.length = 0 then first ++ files.filter (nameContains lowerName) else first

/-- An occurrence record. -/
structure Occurrence where
  file : Str
  line : Nat
  excerpt : Str
deriving DecidableEq

/-- A page report (`missing.ids` and `missing.classes` are the two `missing` fields). -/
structure PageReport where
  expectedIds : List Str
  expectedClasses : List Str
  found : Obj (List Occurrence)
  missingIds : List Str
  missingClasses : List Str
  matchedFiles : List Str
deriving DecidableEq

/-- The key of an id in `found`. -/
def idKey (i : Str) : Str := "id:".toList ++ i

/-- The key of a class in `found`. -/
def classKey (c : Str) : Str := "class:".toList ++ c

/-- The step "initialize found mapping". -/
def initFound (expected : Expected) : Obj (List Occurrence) :=
  expected.classes.foldl (fun fd c => objSet fd (classKey c) [])
    (expected.ids.foldl (fun fd i => objSet fd (idKey i) []) [])

/-- The inner `lines.forEach`: every line the expression matches adds an occurrence with the
file, the 1-based line number and the trimmed line. -/
def scanLines (re : RegExp) (key f : Str) (lines : List Str) (fd : Obj (List Occurrence)) :
    Obj (List Occurrence) :=
  lines.enum.foldl (fun fd il =>
    if re.test il.2 then objPush fd key { file := f, line := il.1 + 1, excerpt := trim il.2 }
    else fd) fd

/-- The body of the loop "search in candidate files" for one file. -/
def scanCandidate (cs : Bool) (expected : Expected) (fileContents : Str → Str)
    (fd : Obj (List Occurrence)) (f : Str) : Obj (List Occurrence) :=
  let lines := splitLines (fileContents f)
  expected.classes.foldl (fun fd cls => scanLines (classRegex cs cls) (classKey cls) f lines fd)
    (expected.ids.foldl (fun fd id => scanLines (idRegex cs id) (idKey id) f lines fd) fd)

/-- The occurrence of the fallback scan. -/
def fallbackOccurrence (f : Str) : Occurrence :=
  { file := f, line := 0, excerpt := "found in file (no line info)".toList }

/-- The body of the fallback loop for one file: the expressions are tested on the whole
content. -/
def scanWhole (cs : Bool) (expected : Expected) (fileContents : Str → Str)
    (fd : Obj (List Occurrence)) (f : Str) : Obj (List Occurrence) :=
  let content := fileContents f
  expected.classes.foldl (fun fd cls =>
      if (classRegex cs cls).test content then objPush fd (classKey cls) (fallbackOccurrence f)
      else fd)
    (expected.ids.foldl (fun fd id =>
      if (idRegex cs id).test content then objPush fd (idKey id) (fallbackOccurrence f)
      else fd) fd)

/-- The occurrence of the scan of the PDF text. -/
def pdfOccurrence (pdfPath : Str) : Occurrence :=
  { file := pdfPath, line := 0, excerpt := "found in PDF text".toList }

/-- The step "search in PDF text (if any)". -/
def scanPdf (cs : Bool) (expected : Expected) (pdfPath pdfText : Str)
    (fd : Obj (List Occurrence)) : Obj (List Occurrence) :=
  if pdfText.isEmpty then fd
  else
    expected.classes.foldl (fun fd cls =>
        if (wordRegex cs cls).test pdfText then objPush fd (classKey cls) (pdfOccurrence pdfPath)
        else fd)
      (expected.ids.foldl (fun fd id =>
        if (wordRegex cs id).test pdfText then objPush fd (idKey id) (pdfOccurrence pdfPath)
        else fd) fd)

/-- The object `found` of a page once the three scans are done. -/
def foundOf (cs : Bool) (files : List Str) (fileContents : Str → Str) (pdfPath pdfText : Str)
    (pageName : Str) (expected : Expected) : Obj (List Occurrence) :=
  let cands := candidates files pageName
  let fd1 := cands.foldl (scanCandidate cs expected fileContents) (initFound expected)
  let fd2 := if cands.length = 0 then files.foldl (scanWhole cs expected fileContents) fd1 else fd1
  scanPdf cs expected pdfPath pdfText fd2

/-- The test of the step "determine missing": `!found[k] || found[k].length === 0`. -/
def noOccurrence {β : Type} (fd : Obj (List β)) (key : Str) : Bool :=
  match objGet fd key with
  | none => true
  | some l => l.length = 0

/-- The step "determine missing" for a list of expected items: the items without an occurrence
are pushed one after the other. -/
def missingOf {β : Type} (fd : Obj (List β)) (key : Str → Str) (items : List Str) : List Str :=
  items.foldl (fun miss x => if noOccurrence fd (key x) then miss ++ [x] else miss) []

/-- The body of the loop over the pages: the report of one page. -/
def pageReport (cs : Bool) (files : List Str) (fileContents : Str → Str) (pdfPath pdfText : Str)
    (pageName : Str) (expected : Expected) : PageReport :=
  let fd := foundOf cs files fileContents pdfPath pdfText pageName expected
  { expectedIds := expected.ids
    expectedClasses := expected.classes
    found := fd
    missingIds := missingOf fd idKey expected.ids
    missingClasses := missingOf fd classKey expected.classes
    matchedFiles := candidates files pageName }

/-- The object `report.pages`: one report for every page (a key of `pages` is never
`__proto__`). -/
def reportPages (spec : Obj SpecEntry) (files : List Str) (fileContents : Str → Str)
    (pdfPath pdfText : Str) : Obj PageReport :=
  (pages spec).foldl (fun rp pe =>
    objSet rp pe.1 (pageReport (caseSensitive spec) files fileContents pdfPath pdfText pe.1 pe.2))
    []

/-- The object `summary`: the `missing` lists of the pages that miss something. -/
def summary (rp : Obj PageReport) : Obj (List Str × List Str) :=
  rp.foldl (fun sm pr =>
    if pr.2.missingIds.length ≠ 0 ∨ pr.2.missingClasses.length ≠ 0 then
      objSet sm pr.1 (pr.2.missingIds, pr.2.missingClasses)
    else sm) []

/-! ## index.js -/

namespace Browser

/-- A picked file: its name and its text (empty when reading failed). -/
structure FileData where
  name : Str
  text : Str

/-- What the browser answers about the document `DOMParser` builds from a text: whether
`getElementById(id)` finds an element and whether `getElementsByClassName(cls)` is non-empty. -/
structure Dom where
  hasId : Str → Str → Bool
  hasClass : Str → Str → Bool

/-- A page report of the browser checker; an occurrence is the name of a file. -/
structure PageReport where
  expectedIds : List Str
  expectedClasses : List Str
  matchedFiles : List Str
  found : Obj (List Str)
  missingIds : List Str
  missingClasses : List Str
deriving DecidableEq

/-- The replacement `text.replace(/<\?[\s\S]*?\?>/g, '')`: every block from `<?` to the next
`?>` is removed; `pending` holds, reversed, the text of a block that is not closed yet. -/
def stripBlocks : Option Str → Str → Str
  | none, [] => []
  | some pending, [] => pending.reverse
  | none, [c] => [c]
  | some pending, [c] => (c :: pending).reverse
  | none, c :: d :: ds =>
    if c = '<' ∧ d = '?' then stripBlocks (some ['?', '<']) ds
    else c :: stripBlocks none (d :: ds)
  | some pending, c :: d :: ds =>
    if c = '?' ∧ d = '>' then stripBlocks none ds
    else stripBlocks (some (c :: pending)) (d :: ds)

/-- The source function `checkHtmlText`: the expected ids and classes the document of the
cleaned text does not have. -/
def checkHtmlText (dom : Dom) (text : Str) (ids classes : List Str) : List Str × List Str :=
  let cleaned := stripBlocks none text
  (ids.foldl (fun miss id => if !dom.hasId cleaned id then miss ++ [id] else miss) [],
   classes.foldl (fun miss cls => if !dom.hasClass cleaned cls then miss ++ [cls] else miss) [])

/-- The replacement `k.replace(/\.[^.]+$/, '')`: a last dot followed by at least one character
is removed with what follows it. -/
def stripExt : Str → Str
  | [] => []
  | c :: cs => if c = '.' ∧ cs ≠ [] ∧ '.' ∉ cs then [] else c :: stripExt cs

/-- The source function `matchSpecKeyByFilename`: the first key equal to the file name up to
case, else the first key whose name without extension the file name contains, else `common`
when it is a key. -/
def matchSpecKeyByFilename (filename : Str) (specKeys : List Str) : Option Str :=
  let lower := toLowerCase filename
  match specKeys.find? (fun k => toLowerCase k == lower) with
  | some k => some k
  | none =>
    match specKeys.find? (fun k => includes lower (toLowerCase (stripExt k))) with
    | some k => some k
    | none => if "common".toList ∈ specKeys then some "common".toList else none

/-- The `ids` of `pageSpec.common`, empty when there is no such entry or field. -/
def commonIds (pageSpec : Obj SpecEntry) : List Str :=
  match objGet pageSpec "common".toList with
  | some c => c.ids.getD []
  | none => []

/-- The `classes` of `pageSpec.common`, empty when there is no such entry or field. -/
def commonClasses (pageSpec : Obj SpecEntry) : List Str :=
  match objGet pageSpec "common".toList with
  | some c => c.classes.getD []
  | none => []

/-- The loop "build report per spec key": an empty report for every key but `meta` and
`common`. -/
def initReport (pageSpec : Obj SpecEntry) : Obj PageReport :=
  (pageSpec.filter (fun kv => kv.1 ≠ "meta".toList)).foldl (fun report kv =>
    if kv.1 = "common".toList then report
    else
      let expectedIds := arrayFromSet (kv.2.ids.getD [] ++ commonIds pageSpec)
      let expectedClasses := arrayFromSet (kv.2.classes.getD [] ++ commonClasses pageSpec)
      objAssign report kv.1
        { expectedIds := expectedIds
          expectedClasses := expectedClasses
          matchedFiles := []
          found := expectedClasses.foldl (fun fd c => objSet fd (classKey c) [])
            (expectedIds.foldl (fun fd i => objSet fd (idKey i) []) [])
          missingIds := []
          missingClasses := [] }) []

/-- The check of one file against one page: the expected items the file does not miss get the
file as an occurrence, and the file joins `matchedFiles`. -/
def checkAgainst (dom : Dom) (fdata : FileData) (info : PageReport) : PageReport :=
  let missing := checkHtmlText dom fdata.text info.expectedIds info.expectedClasses
  { info with
    found := info.expectedClasses.foldl (fun fd c =>
        if c ∉ missing.2 then objPush fd (classKey c) fdata.name else fd)
      (info.expectedIds.foldl (fun fd id =>
        if id ∉ missing.1 then objPush fd (idKey id) fdata.name else fd) info.found)
    matchedFiles :=
      if fdata.name ∈ info.matchedFiles then info.matchedFiles
      else info.matchedFiles ++ [fdata.name] }

/-- The body of the loop "check each uploaded file": the file is checked against the page its
name maps to, or against every page when it maps to `common` or to nothing. Every target key
is a key of the report, so `report[tk]` is defined. -/
def checkFile (dom : Dom) (specKeys : List Str) (report : Obj PageReport) (fdata : FileData) :
    Obj PageReport :=
  let mappedKey :=
    match matchSpecKeyByFilename fdata.name specKeys with
    | some k => if k.isEmpty then "common".toList else k
    | none => "common".toList
  let targetKeys :=
    if mappedKey = "common".toList then specKeys.filter (fun k => k ≠ "common".toList)
    else [mappedKey]
  targetKeys.foldl (fun report tk =>
    match objGet report tk with
    | some info => objSet report tk (checkAgainst dom fdata info)
    | none => report) report

/-- The loop "determine missing per page". -/
def setMissing (report : Obj PageReport) : Obj PageReport :=
  report.map (fun pi =>
    (pi.1, { pi.2 with
      missingIds := missingOf pi.2.found idKey pi.2.expectedIds
      missingClasses := missingOf pi.2.found classKey pi.2.expectedClasses }))

/-- The object `report` of the browser checker for a specification and the picked files. -/
def report (dom : Dom) (pageSpec : Obj SpecEntry) (filesData : List FileData) :
    Obj PageReport :=
  let specKeys := (objKeys pageSpec).filter (fun k => k ≠ "meta".toList)
  setMissing (filesData.foldl (checkFile dom specKeys) (initReport pageSpec))

end Browser

/-! ## Vocabulary of the statements -/

/-- The character before the position reached after reading `w` from a position whose
previous character is `prev`. -/
def lastChar : Option Char → Str → Option Char
  | prev, [] => prev
  | _, c :: cs => lastChar (some c) cs

/-- Declarative reading of a pattern: it matches exactly the text `w`, read after the
character `prev` and followed by `rest`. -/
def Re.Matches (ic : Bool) : Re → Option Char → Str → Str → Prop
  | .eps, _, w, _ => w = []
  | .chr c, _, w, _ => ∃ d, w = [d] ∧ sameChar ic c d = true
  | .set p, _, w, _ => ∃ d, w = [d] ∧ p d = true
  | .many p, _, w, _ => ∀ c ∈ w, p c = true
  | .bol, prev, w, _ => w = [] ∧ prev = none
  | .eol, _, w, rest => w = [] ∧ rest = []
  | .wordB, prev, w, rest => w = [] ∧ isWordAt prev ≠ isWordAt rest.head?
  | .seq a b, prev, w, rest =>
    ∃ w1 w2, w = w1 ++ w2 ∧ a.Matches ic prev w1 (w2 ++ rest) ∧
      b.Matches ic (lastChar prev w1) w2 rest
  | .alt a b, prev, w, rest => a.Matches ic prev w rest ∨ b.Matches ic prev w rest

/-- Two texts of the same length whose characters compare equal one by one, up to case when
`ic` is set. -/
def sameText (ic : Bool) : Str → Str → Bool
  | [], [] => true
  | a :: as, b :: bs => sameChar ic a b && sameText ic as bs
  | _, _ => false

/-- Spec wording, "an identifier attribute assignment with that exact value in quotes", as far
as the text goes: it holds the letters `id` (which may end a longer name), an equals sign with
optional white space on both sides, a quote, the value and a quote. Letters are compared up to
case unless the run is case sensitive. -/
def IdAssign (cs : Bool) (x text : Str) : Prop :=
  ∃ a n1 n2 ws1 ws2 q1 v q2 b,
    text = a ++ (n1 :: n2 :: ws1 ++ '=' :: ws2 ++ q1 :: v ++ [q2]) ++ b ∧
    sameChar (!cs) 'i' n1 = true ∧ sameChar (!cs) 'd' n2 = true ∧
    (∀ c ∈ ws1, isSpace c = true) ∧ (∀ c ∈ ws2, isSpace c = true) ∧
    isQuote q1 = true ∧ isQuote q2 = true ∧ sameText (!cs) x v = true

/-- A class attribute assignment in whose value the token stands between two white-space
characters: the text holds the letters `class`, an equals sign with optional white space on
both sides, a quote, and, before the next quote, a white-space character, the token and a
white-space character. Letters are compared up to case unless the run is case sensitive. -/
def ClassAssign (cs : Bool) (c text : Str) : Prop :=
  ∃ a n ws1 ws2 q1 v1 s1 t s2 v2 q2 b,
    text = a ++ (n ++ ws1 ++ '=' :: ws2 ++ q1 :: v1 ++ s1 :: t ++ s2 :: v2 ++ [q2]) ++ b ∧
    sameText (!cs) ['c', 'l', 'a', 's', 's'] n = true ∧
    (∀ x ∈ ws1, isSpace x = true) ∧ (∀ x ∈ ws2, isSpace x = true) ∧
    isQuote q1 = true ∧ (∀ x ∈ v1, notQuote x = true) ∧ isSpace s1 = true ∧
    sameText (!cs) c t = true ∧ isSpace s2 = true ∧ (∀ x ∈ v2, notQuote x = true) ∧
    isQuote q2 = true

/-- Spec wording, "whole-word boundary matching": the text holds an occurrence of the word
with a word boundary on both sides, that is, exactly one of the two characters around each
end of the occurrence is a word character (an edge of the text counts as a character that is
not one). Letters are compared up to case unless the run is case sensitive. -/
def WholeWord (cs : Bool) (x text : Str) : Prop :=
  ∃ a w b, text = a ++ w ++ b ∧ sameText (!cs) x w = true ∧
    isWordAt (lastChar none a) ≠ isWordAt (w ++ b).head? ∧
    isWordAt (lastChar none (a ++ w)) ≠ isWordAt b.head?

/-- A step on `found` that appends the list `l` to the entry of key `k`, when there is one. -/
def Appends {β : Type} (step : Obj (List β) → Obj (List β)) (k : Str) (l : List β) : Prop :=
  ∀ fd, objGet (step fd) k = (objGet fd k).map (fun old => old ++ l)

/-- The occurrences `scanLines` adds to the entry of key `k`. -/
def lineHits (re : RegExp) (key f : Str) (lines : List Str) (k : Str) : List Occurrence :=
  lines.enum.flatMap (fun il =>
    if re.test il.2 = true ∧ key = k then [{ file := f, line := il.1 + 1, excerpt := trim il.2 }]
    else [])

/-- The occurrences the scan of the candidate `f` adds to the entry of key `k`. -/
def candidateHits (cs : Bool) (expected : Expected) (fileContents : Str → Str) (k f : Str) :
    List Occurrence :=
  expected.ids.flatMap (fun id =>
      lineHits (idRegex cs id) (idKey id) f (splitLines (fileContents f)) k) ++
    expected.classes.flatMap (fun cls =>
      lineHits (classRegex cs cls) (classKey cls) f (splitLines (fileContents f)) k)

/-- The occurrences the fallback scan of the file `f` adds to the entry of key `k`. -/
def wholeHits (cs : Bool) (expected : Expected) (fileContents : Str → Str) (k f : Str) :
    List Occurrence :=
  expected.ids.flatMap (fun id =>
      if (idRegex cs id).test (fileContents f) = true ∧ idKey id = k then [fallbackOccurrence f]
      else []) ++
    expected.classes.flatMap (fun cls =>
      if (classRegex cs cls).test (fileContents f) = true ∧ classKey cls = k then
        [fallbackOccurrence f]
      else [])

/-- The occurrences the scan of the PDF text adds to the entry of key `k`. -/
def pdfHits (cs : Bool) (expected : Expected) (pdfPath pdfText k : Str) : List Occurrence :=
  if pdfText.isEmpty then []
  else
    expected.ids.flatMap (fun id =>
        if (wordRegex cs id).test pdfText = true ∧ idKey id = k then [pdfOccurrence pdfPath]
        else []) ++
      expected.classes.flatMap (fun cls =>
        if (wordRegex cs cls).test pdfText = true ∧ classKey cls = k then
          [pdfOccurrence pdfPath]
        else [])

/-- All the occurrences the three scans add to the entry of key `k` of a page. -/
def allHits (cs : Bool) (files : List Str) (fileContents : Str → Str) (pdfPath pdfText : Str)
    (pageName : Str) (expected : Expected) (k : Str) : List Occurrence :=
  (candidates files pageName).flatMap (candidateHits cs expected fileContents k) ++
    (if (candidates files pageName).length = 0 then
      files.flatMap (wholeHits cs expected fileContents k) else []) ++
    pdfHits cs expected pdfPath pdfText k

/-- Spec wording, "`missing` = exactly those expected items whose occurrence list is empty":
the missing list is the expected list filtered, in order, by an empty entry in `found`, and
every expected item is either missing with an empty entry or not missing with an entry that
holds an occurrence. -/
def MissingDerived {β : Type} [DecidableEq β] (expected : List Str) (key : Str → Str)
    (found : Obj (List β)) (missing : List Str) : Prop :=
  missing = expected.filter (fun x => decide (objGet found (key x) = some [])) ∧
  ∀ x ∈ expected,
    (x ∈ missing ∧ objGet found (key x) = some []) ∨
    (x ∉ missing ∧ ∃ o l, objGet found (key x) = some (o :: l))

/-- What the browser checker keeps true of every entry of its report: the key is a page key of
the specification, the expected lists are the union of the page's lists and the common ones,
and `found` has an entry for every expected item. -/
def Browser.Kept (pageSpec : Obj SpecEntry) (kr : Str × Browser.PageReport) : Prop :=
  kr.1 ≠ "meta".toList ∧ kr.1 ≠ "common".toList ∧
  (∃ entry, (kr.1, entry) ∈ pageSpec ∧
    kr.2.expectedIds = arrayFromSet (entry.ids.getD [] ++ Browser.commonIds pageSpec) ∧
    kr.2.expectedClasses =
      arrayFromSet (entry.classes.getD [] ++ Browser.commonClasses pageSpec)) ∧
  (∀ i ∈ kr.2.expectedIds, (objGet kr.2.found (idKey i)).isSome = true) ∧
  (∀ c ∈ kr.2.expectedClasses, (objGet kr.2.found (classKey c)).isSome = true)

/-- Spec wording of the merge of `common`: the page key is not a reserved key, the resolved
lists contain the common ids and classes, have no duplicate, and still contain what an entry
of the specification with that key declares. -/
def Resolved (spec : Obj SpecEntry) (common : SpecEntry) (k : Str) (ids classes : List Str) :
    Prop :=
  k ≠ "meta".toList ∧ k ≠ "common".toList ∧
  (∀ i ∈ common.ids.getD [], i ∈ ids) ∧ (∀ c ∈ common.classes.getD [], c ∈ classes) ∧
  ids.Nodup ∧ classes.Nodup ∧
  ∃ entry, (k, entry) ∈ spec ∧
    (∀ i ∈ entry.ids.getD [], i ∈ ids) ∧ (∀ c ∈ entry.classes.getD [], c ∈ classes)

/-- Whether the character next to an occurrence (none at an edge of the line) is neither white
space nor a quote, that is, belongs to the same token. -/
def attached : Option Char → Bool
  | some x => !isSpace x && !isQuote x
  | none => false

/-- Wording of claim C5, "the class occurs only as a proper part of a longer class token":
every occurrence of the class name in the line has a character that is neither white space nor
a quote directly before it or directly after it. An occurrence is the name itself when `cs` is
set, and the name up to case otherwise. -/
def EmbeddedOnly (cs : Bool) (c line : Str) : Prop :=
  ∀ a t b, line = a ++ t ++ b → sameText (!cs) c t = true →
    attached (lastChar none a) = true ∨ attached b.head? = true

/-- Whether the text starts with an occurrence of `c`. -/
def occursHere (ic : Bool) (c s : Str) : Bool := sameText ic c (s.take c.length)

/-- A decision procedure for `EmbeddedOnly`: the occurrences of `c` are looked for at every
position of the line, `prev` being the character before the position. -/
def embeddedCheck (ic : Bool) (c : Str) : Option Char → Str → Bool
  | prev, [] => !occursHere ic c [] || attached prev
  | prev, x :: xs =>
    (!occursHere ic c (x :: xs) || attached prev ||
        attached ((x :: xs).drop c.length).head?) &&
      embeddedCheck ic c (some x) xs

/-- A character that can stand in the name of an attribute: any character but white space, a
quote, `>`, `/` and `=`. -/
def isNameChar (c : Char) : Bool :=
  !isSpace c && !isQuote c && !(c = '>') && !(c = '/') && !(c = '=')

/-- Whether a name can start after the given character (none at the start of the line): the
character is not one of a name. -/
def nameEdge : Option Char → Bool
  | none => true
  | some c => !isNameChar c

/-- Wording of claim C11, "an assignment to an attribute whose name is exactly `id` with the
quoted value": the text holds the letters `id`, in either case, that no name character
precedes, an equals sign with optional white space on both sides, a quote, the value and a
quote. The value is compared up to case unless `cs` is set. -/
def IdAttribute (cs : Bool) (x text : Str) : Prop :=
  ∃ a n1 n2 ws1 ws2 q1 v q2 b,
    text = a ++ (n1 :: n2 :: ws1 ++ '=' :: ws2 ++ q1 :: v ++ [q2]) ++ b ∧
    nameEdge (lastChar none a) = true ∧
    sameChar true 'i' n1 = true ∧ sameChar true 'd' n2 = true ∧
    (∀ c ∈ ws1, isSpace c = true) ∧ (∀ c ∈ ws2, isSpace c = true) ∧
    isQuote q1 = true ∧ isQuote q2 = true ∧ sameText (!cs) x v = true

/-- A recogniser for `IdAttribute`: the pattern of `idRegex` with the start of the line or a
character that is not one of a name before the letters `id`, which are read in either case. -/
def attributeRegex (cs : Bool) (x : Str) : RegExp :=
  { pattern := seqAll [Re.alt Re.bol (Re.set (fun c => !isNameChar c)),
      Re.set (fun c => sameChar true 'i' c), Re.set (fun c => sameChar true 'd' c),
      Re.many isSpace, Re.chr '=', Re.many isSpace, Re.set isQuote, litSeq x, Re.set isQuote]
    ignoreCase := !cs }

/-- The text of lines joined by line feeds. -/
def joinLines : List Str → Str
  | [] => []
  | [l] => l
  | l :: l2 :: ls => l ++ '\n' :: joinLines (l2 :: ls)

/-- A line without its last character when that is a carriage return. -/
def stripCR : Str → Str
  | [] => []
  | [c] => if c = '\r' then [] else [c]
  | c :: d :: t => c :: stripCR (d :: t)

/-- The text `line` is the line of index `i`, from 0, of the content: the content is a list of
texts without a line feed, joined by line feeds, and `line` is the one of index `i`. -/
def HasLine (content : Str) (i : Nat) (line : Str) : Prop :=
  ∃ ls : List Str, content = joinLines ls ∧ (∀ l ∈ ls, '\n' ∉ l) ∧ ls[i]? = some line

/-- The value of an assignment to `id` that starts at the head of the text: after the letters
`id`, optional white space, an equals sign, optional white space and a quote, the characters
up to the next quote, when there is one. -/
def valueHere : Str → Option Str
  | n1 :: n2 :: r =>
    if n1 = 'i' ∧ n2 = 'd' then
      match r.dropWhile isSpace with
      | e :: r2 =>
        if e = '=' then
          match r2.dropWhile isSpace with
          | q :: r3 =>
            if isQuote q = true ∧ r3.dropWhile notQuote ≠ [] then some (r3.takeWhile notQuote)
            else none
          | [] => none
        else none
      | [] => none
    else none
  | _ => none

/-- The values without a quote that the texts `id = "…"` of a line give, one for each position
where the letters `id` start such a text. -/
def idValues : Str → List Str
  | [] => []
  | c :: cs => (valueHere (c :: cs)).toList ++ idValues cs

end Program

/-! ## Examples -/

/-- Example specification: the page `Home.php` expects the id `logo` and the class `title`. -/
def homeSpec : Obj SpecEntry :=
  [("Home.php".toList,
    { ids := some ["logo".toList], classes := some ["title".toList], case_sensitive := false })]

/-- Example pool: one file `Home.php` whose content is `markup`. -/
def homeContents (markup : Str) : Str → Str :=
  fun f => if f = "Home.php".toList then markup else []

/-- Example document interface: an id or class is present when the text contains its name. -/
def textDom : Browser.Dom := { hasId := includes, hasClass := includes }

/-- The report of the example page for the example pool, without PDF text. -/
def homeReport (markup : Str) : Str × PageReport :=
  ("Home.php".toList,
    pageReport false ["Home.php".toList] (homeContents markup) [] [] "Home.php".toList
      { ids := ["logo".toList], classes := ["title".toList] })

/-- Example specification with a `common` entry and a `meta` entry: `Home.php` declares the id
`logo`, `common` the id `footer` and the class `title`. -/
def commonSpec : Obj SpecEntry :=
  [("meta".toList, { ids := none, classes := none, case_sensitive := false }),
   ("Home.php".toList, { ids := some ["logo".toList], classes := none, case_sensitive := false }),
   ("common".toList,
    { ids := some ["footer".toList, "logo".toList], classes := some ["title".toList],
      case_sensitive := false })]

/-- The example specification with the flag `meta.case_sensitive` set. -/
def strictSpec : Obj SpecEntry :=
  ("meta".toList, { ids := none, classes := none, case_sensitive := true }) :: homeSpec

/-- The report of the example page for the example pool in a case-sensitive run. -/
def strictReport (markup : Str) : Str × PageReport :=
  ("Home.php".toList,
    pageReport true ["Home.php".toList] (homeContents markup) [] [] "Home.php".toList
      { ids := ["logo".toList], classes := ["title".toList] })

/-- Example pool for the fallback scan: one file `misc.html` whose content is `markup`. -/
def miscContents (markup : Str) : Str → Str :=
  fun f => if f = "misc.html".toList then markup else []

/-- The report of the example page for the pool `misc.html`, without PDF text. -/
def miscReport (markup : Str) : Str × PageReport :=
  ("Home.php".toList,
    pageReport false ["misc.html".toList] (miscContents markup) [] [] "Home.php".toList
      { ids := ["logo".toList], classes := ["title".toList] })

/-- Example specification for the PDF scan: the page `Tickets.php` expects the id `tickets`. -/
def ticketsSpec : Obj SpecEntry :=
  [("Tickets.php".toList,
    { ids := some ["tickets".toList], classes := none, case_sensitive := false })]

/-! ## Lemmas -/

theorem objGet_objSet {α : Type} (o : Obj α) (k k2 : Str) (v : α) :
    objGet (objSet o k v) k2 = if k = k2 then some v else objGet o k2 := by
  induction o with
  | nil => simp [objSet, objGet]
  | cons h t ih =>
    obtain ⟨k1, v1⟩ := h
    by_cases h1 : k1 = k
    · subst h1
      by_cases h2 : k1 = k2 <;> simp [objSet, objGet, h2]
    · by_cases h2 : k1 = k2
      · subst h2
        have : ¬ k = k1 := fun e => h1 e.symm
        simp [objSet, objGet, h1, this]
      · simp [objSet, objGet, h1, h2, ih]

theorem objGet_objPush {β : Type} (o : Obj (List β)) (k k2 : Str) (x : β) :
    objGet (objPush o k x) k2 =
      if k = k2 then (objGet o k2).map (fun l => l ++ [x]) else objGet o k2 := by
  induction o with
  | nil => simp [objPush, objGet]
  | cons h t ih =>
    obtain ⟨k1, v1⟩ := h
    by_cases h1 : k1 = k
    · subst h1
      by_cases h2 : k1 = k2 <;> simp [objPush, objGet, h2]
    · by_cases h2 : k1 = k2
      · subst h2
        have : ¬ k = k1 := fun e => h1 e.symm
        simp [objPush, objGet, h1, this]
      · simp [objPush, objGet, h1, h2, ih]

theorem mem_objSet {α : Type} (o : Obj α) (k : Str) (v : α) (kv : Str × α)
    (h : kv ∈ objSet o k v) : kv ∈ o ∨ kv = (k, v) := by
  induction o with
  | nil => simpa [objSet] using h
  | cons hd t ih =>
    obtain ⟨k1, v1⟩ := hd
    by_cases h1 : k1 = k
    · subst h1
      simp [objSet] at h
      rcases h with h | h
      · right; exact h
      · left; exact List.mem_cons_of_mem _ h
    · simp [objSet, h1] at h
      rcases h with h | h
      · left; simp [h]
      · rcases ih h with h2 | h2
        · left; exact List.mem_cons_of_mem _ h2
        · right; exact h2

theorem lastChar_append (prev : Option Char) (a b : Str) :
    lastChar prev (a ++ b) = lastChar (lastChar prev a) b := by
  induction a generalizing prev with
  | nil => rfl
  | cons c cs ih => simp [lastChar, ih]

theorem mem_manyEnds (p : Char → Bool) (prev : Option Char) (s : Str) (x : Option Char × Str) :
    x ∈ manyEnds p prev s ↔
      ∃ w, s = w ++ x.2 ∧ x.1 = lastChar prev w ∧ ∀ c ∈ w, p c = true := by
  induction s generalizing prev with
  | nil =>
    simp only [manyEnds, List.mem_singleton]
    constructor
    · rintro rfl
      exact ⟨[], rfl, rfl, by simp⟩
    · rintro ⟨w, hw, hx, _⟩
      have h1 : w = [] := by
        cases w with
        | nil => rfl
        | cons a b => simp at hw
      subst h1
      have h2 : x.2 = [] := by simpa using hw.symm
      exact Prod.ext hx h2
  | cons c cs ih =>
    rw [manyEnds]
    cases hp : p c with
    | true =>
      simp only [if_true, List.mem_append, List.mem_singleton, ih]
      constructor
      · rintro (⟨w, hw, hx, hall⟩ | rfl)
        · refine ⟨c :: w, by simp [hw], by simpa [lastChar] using hx, ?_⟩
          intro d hd
          rcases List.mem_cons.mp hd with rfl | hd
          · exact hp
          · exact hall d hd
        · exact ⟨[], rfl, rfl, by simp⟩
      · rintro ⟨w, hw, hx, hall⟩
        cases w with
        | nil =>
          right
          exact Prod.ext hx (by simpa using hw.symm)
        | cons d w =>
          left
          simp only [List.cons_append, List.cons.injEq] at hw
          obtain ⟨rfl, hw2⟩ := hw
          exact ⟨w, hw2, by simpa [lastChar] using hx,
            fun e he => hall e (List.mem_cons_of_mem _ he)⟩
    | false =>
      simp only [Bool.false_eq_true, if_false, List.mem_singleton]
      constructor
      · rintro rfl
        exact ⟨[], rfl, rfl, by simp⟩
      · rintro ⟨w, hw, hx, hall⟩
        cases w with
        | nil => exact Prod.ext hx (by simpa using hw.symm)
        | cons d w =>
          simp only [List.cons_append, List.cons.injEq] at hw
          obtain ⟨rfl, _⟩ := hw
          have := hall c (List.mem_cons_self _ _)
          rw [hp] at this
          exact absurd this (by simp)

theorem readLiteral_escapeRegExp (s : Str) : readLiteral (escapeRegExp s) = some s := by
  induction s with
  | nil => rfl
  | cons c cs ih =>
    by_cases h : c = '.' ∨ c = '*' ∨ c = '+' ∨ c = '?' ∨ c = '^' ∨ c = '$' ∨ c = '\x7b' ∨
        c = '\x7d' ∨ c = '(' ∨ c = ')' ∨ c = '|' ∨ c = '[' ∨ c = ']' ∨ c = '\\'
    · have hs : isSyntaxCharacter c = true := by
        rcases h with h | h | h | h | h | h | h | h | h | h | h | h | h | h <;> subst h <;> decide
      rw [escapeRegExp, if_pos h]
      simp [readLiteral, hs, ih]
    · have hs : isSyntaxCharacter c = false := by
        simp only [not_or] at h
        simp [isSyntaxCharacter, h]
      have hb : c ≠ '\\' := fun e => by simp [e] at h
      rw [escapeRegExp, if_neg h, readLiteral.eq_def]
      simp [hb, hs, ih]

theorem lastChar_some_ne_none (c : Char) (w : Str) : lastChar (some c) w ≠ none := by
  induction w generalizing c with
  | nil => simp [lastChar]
  | cons d ds ih => simpa [lastChar] using ih d

theorem foldl_push_filter (p : Str → Bool) (items acc : List Str) :
    items.foldl (fun miss x => if p x then miss ++ [x] else miss) acc =
      acc ++ items.filter p := by
  induction items generalizing acc with
  | nil => simp
  | cons x xs ih =>
    rw [List.foldl_cons, ih]
    cases hp : p x <;> simp [List.filter_cons, hp]

theorem appends_skip {β : Type} (k : Str) : Appends (fun fd : Obj (List β) => fd) k [] := by
  intro fd
  cases objGet fd k <;> simp

theorem appends_comp {β : Type} (f g : Obj (List β) → Obj (List β)) (k : Str) (l1 l2 : List β)
    (hf : Appends f k l1) (hg : Appends g k l2) : Appends (fun fd => g (f fd)) k (l1 ++ l2) := by
  intro fd
  rw [hg (f fd), hf fd]
  cases objGet fd k <;> simp

theorem idKey_inj (a b : Str) : idKey a = idKey b ↔ a = b := by
  simp [idKey]

theorem classKey_inj (a b : Str) : classKey a = classKey b ↔ a = b := by
  simp [classKey]

theorem idKey_ne_classKey (a b : Str) : idKey a ≠ classKey b := by
  intro h
  have h1 : (idKey a).head? = some 'i' := rfl
  have h2 : (classKey b).head? = some 'c' := rfl
  rw [h, h2] at h1
  exact absurd h1 (by decide)

theorem objGet_mem {α : Type} (o : Obj α) (k : Str) (v : α) (h : objGet o k = some v) :
    (k, v) ∈ o := by
  induction o with
  | nil => simp [objGet] at h
  | cons hd t ih =>
    obtain ⟨k1, v1⟩ := hd
    by_cases h1 : k1 = k
    · simp only [objGet, h1, if_true, Option.some.injEq] at h
      subst h1 h
      exact List.mem_cons_self _ _
    · simp only [objGet, h1, if_false] at h
      exact List.mem_cons_of_mem _ (ih h)

theorem foldl_objAssign {α γ : Type} (key : γ → Str) (val : γ → α) (skip : γ → Prop)
    [DecidablePred skip] (xs : List γ) (init : Obj α) :
    xs.foldl (fun acc x => if skip x then acc else objAssign acc (key x) (val x)) init =
      xs.foldl (fun acc x =>
        if skip x ∨ key x = "__proto__".toList then acc else objSet acc (key x) (val x))
        init := by
  congr
  funext acc x
  by_cases h1 : skip x
  · simp [h1]
  · by_cases h2 : key x = "__proto__".toList
    · simp [h1, h2, objAssign]
    · simp [h1, h2, objAssign]

theorem appends_isSome {β : Type} (step : Obj (List β) → Obj (List β)) (k : Str) (l : List β)
    (h : Appends step k l) (fd : Obj (List β)) (hs : (objGet fd k).isSome = true) :
    (objGet (step fd) k).isSome = true := by
  rw [h fd]
  cases hg : objGet fd k with
  | none => rw [hg] at hs; simp at hs
  | some v => rfl

theorem arrayFromSet_aux (xs acc : List Str) (hacc : acc.Nodup) :
    (xs.foldl (fun acc x => if x ∈ acc then acc else acc ++ [x]) acc).Nodup ∧
    ∀ y, y ∈ xs.foldl (fun acc x => if x ∈ acc then acc else acc ++ [x]) acc ↔
      y ∈ acc ∨ y ∈ xs := by
  induction xs generalizing acc with
  | nil => simp [hacc]
  | cons x xs ih =>
    rw [List.foldl_cons]
    by_cases hx : x ∈ acc
    · rw [if_pos hx]
      refine ⟨(ih acc hacc).1, fun y => ?_⟩
      rw [(ih acc hacc).2 y]
      constructor
      · rintro (h | h)
        · exact Or.inl h
        · exact Or.inr (List.mem_cons_of_mem _ h)
      · rintro (h | h)
        · exact Or.inl h
        · rcases List.mem_cons.mp h with rfl | h
          · exact Or.inl hx
          · exact Or.inr h
    · rw [if_neg hx]
      have hn : (acc ++ [x]).Nodup := by
        rw [List.nodup_append]
        exact ⟨hacc, List.nodup_singleton x, by
          intro a ha hb
          rw [List.mem_singleton] at hb
          subst hb
          exact hx ha⟩
      refine ⟨(ih _ hn).1, fun y => ?_⟩
      rw [(ih _ hn).2 y]
      simp only [List.mem_append, List.mem_singleton, List.mem_cons]
      tauto

theorem objGet_map_isSome {α β : Type} (o : Obj α) (f : Str × α → β) (k : Str) :
    (objGet (o.map (fun kv => (kv.1, f kv))) k).isSome = (objGet o k).isSome := by
  induction o with
  | nil => rfl
  | cons hd t ih =>
    obtain ⟨k1, v1⟩ := hd
    by_cases h1 : k1 = k
    · simp [objGet, h1]
    · simpa [objGet, h1] using ih

theorem eq_of_mem_nodup {α : Type} (o : Obj α) (h : (objKeys o).Nodup) (k : Str) (v w : α)
    (hv : (k, v) ∈ o) (hw : (k, w) ∈ o) : v = w := by
  induction o with
  | nil => simp at hv
  | cons hd t ih =>
    obtain ⟨k1, v1⟩ := hd
    have h2 : k1 ∉ objKeys t ∧ (objKeys t).Nodup :=
      List.nodup_cons.mp (show (k1 :: objKeys t).Nodup from h)
    rcases List.mem_cons.mp hv with hv1 | hv1
    · rcases List.mem_cons.mp hw with hw1 | hw1
      · rw [Prod.mk.injEq] at hv1 hw1
        rw [hv1.2, hw1.2]
      · rw [Prod.mk.injEq] at hv1
        exact absurd (List.mem_map.mpr ⟨(k, w), hw1, hv1.1⟩) h2.1
    · rcases List.mem_cons.mp hw with hw1 | hw1
      · rw [Prod.mk.injEq] at hw1
        exact absurd (List.mem_map.mpr ⟨(k, v), hv1, hw1.1⟩) h2.1
      · exact ih h2.2 hv1 hw1

theorem interpolated_escapeRegExp (s : Str) : interpolated (escapeRegExp s) = litSeq s := by
  simp [interpolated, readLiteral_escapeRegExp]

theorem missingOf_eq_filter {β : Type} (fd : Obj (List β)) (key : Str → Str)
    (items : List Str) :
    missingOf fd key items = items.filter (fun x => noOccurrence fd (key x)) := by
  unfold missingOf
  rw [foldl_push_filter (fun x => noOccurrence fd (key x))]
  simp

theorem appends_push {β : Type} (k2 k : Str) (x : β) (b : Prop) [Decidable b] :
    Appends (fun fd : Obj (List β) => if b then objPush fd k2 x else fd) k
      (if b ∧ k2 = k then [x] else []) := by
  intro fd
  by_cases hb : b
  · by_cases hk : k2 = k
    · simp [hb, hk, objGet_objPush]
    · simp only [hb, hk, if_true, objGet_objPush, if_false, and_false]
      cases objGet fd k <;> simp
  · simp only [hb, if_false, false_and]
    cases objGet fd k <;> simp

theorem appends_foldl {β γ : Type} (step : Obj (List β) → γ → Obj (List β)) (k : Str)
    (c : γ → List β) (xs : List γ) (h : ∀ x, Appends (fun fd => step fd x) k (c x)) :
    Appends (fun fd => xs.foldl step fd) k (xs.flatMap c) := by
  induction xs with
  | nil => exact appends_skip k
  | cons x xs ih =>
    intro fd
    have e1 : objGet (List.foldl step (step fd x) xs) k = _ := ih (step fd x)
    have e2 : objGet (step fd x) k = _ := h x fd
    show objGet (List.foldl step (step fd x) xs) k = _
    rw [e1, e2]
    cases objGet fd k <;> simp

theorem objGet_foldl_init {β : Type} (key : Str → Str) (xs : List Str) (init : Obj (List β))
    (k : Str) :
    objGet (xs.foldl (fun fd x => objSet fd (key x) []) init) k =
      if k ∈ xs.map key then some [] else objGet init k := by
  induction xs generalizing init with
  | nil => simp
  | cons x xs ih =>
    rw [List.foldl_cons, ih, objGet_objSet]
    by_cases h1 : k ∈ xs.map key
    · simp [h1]
    · by_cases h2 : key x = k
      · simp [h1, h2]
      · have h3 : ¬ k = key x := fun e => h2 e.symm
        simp [h1, h2, h3]

theorem mem_foldl_objSet {α γ : Type} (key : γ → Str) (val : γ → α) (skip : γ → Prop)
    [DecidablePred skip] (xs : List γ) (init : Obj α) (kv : Str × α)
    (h : kv ∈ xs.foldl (fun acc x => if skip x then acc else objSet acc (key x) (val x)) init) :
    kv ∈ init ∨ ∃ x ∈ xs, ¬ skip x ∧ kv = (key x, val x) := by
  induction xs generalizing init with
  | nil => exact Or.inl h
  | cons x xs ih =>
    rw [List.foldl_cons] at h
    rcases ih _ h with h1 | ⟨y, hy, hs, he⟩
    · by_cases hx : skip x
      · rw [if_pos hx] at h1
        exact Or.inl h1
      · rw [if_neg hx] at h1
        rcases mem_objSet _ _ _ _ h1 with h2 | h2
        · exact Or.inl h2
        · exact Or.inr ⟨x, List.mem_cons_self _ _, hx, h2⟩
    · exact Or.inr ⟨y, List.mem_cons_of_mem _ hy, hs, he⟩

theorem mem_arrayFromSet (xs : List Str) (y : Str) : y ∈ arrayFromSet xs ↔ y ∈ xs := by
  unfold arrayFromSet
  rw [(arrayFromSet_aux xs [] List.nodup_nil).2 y]
  simp

theorem nodup_arrayFromSet (xs : List Str) : (arrayFromSet xs).Nodup :=
  (arrayFromSet_aux xs [] List.nodup_nil).1

theorem objGet_objSet_isSome {α : Type} (o : Obj α) (k k2 : Str) (v : α)
    (h : (objGet o k2).isSome = true) : (objGet (objSet o k v) k2).isSome = true := by
  rw [objGet_objSet]
  by_cases hk : k = k2
  · simp [hk]
  · simpa [hk] using h

theorem mem_objKeys_objSet {α : Type} (o : Obj α) (k k2 : Str) (v : α)
    (h : k2 ∈ objKeys (objSet o k v)) : k2 ∈ objKeys o ∨ k2 = k := by
  obtain ⟨kv, hkv, rfl⟩ := List.mem_map.mp h
  rcases mem_objSet o k v kv hkv with h1 | h1
  · exact Or.inl (List.mem_map.mpr ⟨kv, h1, rfl⟩)
  · right
    rw [h1]

theorem mem_summary_foldl (rp : Obj PageReport) (init : Obj (List Str × List Str))
    (km : Str × (List Str × List Str))
    (h : km ∈ rp.foldl (fun sm pr =>
      if pr.2.missingIds.length ≠ 0 ∨ pr.2.missingClasses.length ≠ 0 then
        objSet sm pr.1 (pr.2.missingIds, pr.2.missingClasses)
      else sm) init) :
    km ∈ init ∨ ∃ pr ∈ rp, (pr.2.missingIds.length ≠ 0 ∨ pr.2.missingClasses.length ≠ 0) ∧
      km.1 = pr.1 := by
  induction rp generalizing init with
  | nil => exact Or.inl h
  | cons x xs ih =>
    rw [List.foldl_cons] at h
    rcases ih _ h with h1 | ⟨pr, hpr, hc, he⟩
    · by_cases hx : x.2.missingIds.length ≠ 0 ∨ x.2.missingClasses.length ≠ 0
      · rw [if_pos hx] at h1
        rcases mem_objSet _ _ _ _ h1 with h2 | h2
        · exact Or.inl h2
        · exact Or.inr ⟨x, List.mem_cons_self _ _, hx, by rw [h2]⟩
      · rw [if_neg hx] at h1
        exact Or.inl h1
    · exact Or.inr ⟨pr, List.mem_cons_of_mem _ hpr, hc, he⟩

theorem objGet_initFound (e : Expected) (k : Str) :
    objGet (initFound e) k =
      if k ∈ e.ids.map idKey ∨ k ∈ e.classes.map classKey then some [] else none := by
  unfold initFound
  rw [objGet_foldl_init, objGet_foldl_init]
  by_cases h1 : k ∈ e.classes.map classKey
  · simp [h1]
  · by_cases h2 : k ∈ e.ids.map idKey
    · simp [h1, h2]
    · simp [h1, h2, objGet]

theorem missingDerived_of {β : Type} [DecidableEq β] (expected : List Str) (key : Str → Str)
    (found : Obj (List β))
    (hsome : ∀ x ∈ expected, (objGet found (key x)).isSome = true) :
    MissingDerived expected key found (missingOf found key expected) := by
  have hno : ∀ x ∈ expected,
      noOccurrence found (key x) = decide (objGet found (key x) = some []) := by
    intro x hx
    have := hsome x hx
    unfold noOccurrence
    cases hg : objGet found (key x) with
    | none => rw [hg] at this; simp at this
    | some l => cases l <;> simp
  have hf : missingOf found key expected =
      expected.filter (fun x => decide (objGet found (key x) = some [])) := by
    rw [missingOf_eq_filter]
    exact List.filter_congr hno
  refine ⟨hf, ?_⟩
  intro x hx
  rw [hf]
  have := hsome x hx
  cases hg : objGet found (key x) with
  | none => rw [hg] at this; simp at this
  | some l =>
    cases l with
    | nil =>
      left
      exact ⟨List.mem_filter.mpr ⟨hx, by simp [hg]⟩, rfl⟩
    | cons o l =>
      right
      refine ⟨?_, o, l, rfl⟩
      intro hm
      have := (List.mem_filter.mp hm).2
      simp [hg] at this

theorem initReport_kept (pageSpec : Obj SpecEntry) (kr : Str × Browser.PageReport)
    (h : kr ∈ Browser.initReport pageSpec) : Browser.Kept pageSpec kr := by
  unfold Browser.initReport at h
  rw [foldl_objAssign (fun kv : Str × SpecEntry => kv.1) _
    (fun kv => kv.1 = "common".toList)] at h
  rcases mem_foldl_objSet (fun kv : Str × SpecEntry => kv.1) _
    (fun kv => kv.1 = "common".toList ∨ kv.1 = "__proto__".toList) _ [] kr h
    with h2 | ⟨kv, hkv, hs, he⟩
  · simp at h2
  · obtain ⟨hin, hmeta⟩ := List.mem_filter.mp hkv
    subst he
    simp only [not_or] at hs
    refine ⟨by simpa using hmeta, hs.1, ⟨kv.2, hin, rfl, rfl⟩, ?_, ?_⟩
    · intro i hi
      show (objGet (List.foldl _ (List.foldl _ [] _) _) (idKey i)).isSome = true
      rw [objGet_foldl_init, objGet_foldl_init]
      have : idKey i ∈ List.map idKey
          (arrayFromSet (kv.2.ids.getD [] ++ Browser.commonIds pageSpec)) :=
        List.mem_map.mpr ⟨i, hi, rfl⟩
      by_cases h1 : idKey i ∈ List.map classKey
          (arrayFromSet (kv.2.classes.getD [] ++ Browser.commonClasses pageSpec))
      · simp [h1]
      · simp [h1, this]
    · intro c hc
      show (objGet (List.foldl _ (List.foldl _ [] _) _) (classKey c)).isSome = true
      rw [objGet_foldl_init]
      have : classKey c ∈ List.map classKey
          (arrayFromSet (kv.2.classes.getD [] ++ Browser.commonClasses pageSpec)) :=
        List.mem_map.mpr ⟨c, hc, rfl⟩
      simp [this]

theorem checkAgainst_kept (dom : Browser.Dom) (fdata : Browser.FileData)
    (pageSpec : Obj SpecEntry) (k : Str) (info : Browser.PageReport)
    (h : Browser.Kept pageSpec (k, info)) :
    Browser.Kept pageSpec (k, Browser.checkAgainst dom fdata info) := by
  obtain ⟨h1, h2, h3, h4, h5⟩ := h
  have happ : ∀ key, ∃ l, Appends (fun fd : Obj (List Str) =>
      info.expectedClasses.foldl (fun fd c =>
        if c ∉ (Browser.checkHtmlText dom fdata.text info.expectedIds info.expectedClasses).2
        then objPush fd (classKey c) fdata.name else fd)
      (info.expectedIds.foldl (fun fd id =>
        if id ∉ (Browser.checkHtmlText dom fdata.text info.expectedIds info.expectedClasses).1
        then objPush fd (idKey id) fdata.name else fd) fd)) key l := by
    intro key
    exact ⟨_, appends_comp _ _ key _ _
      (appends_foldl _ key _ info.expectedIds (fun id => appends_push _ key _ _))
      (appends_foldl _ key _ info.expectedClasses (fun c => appends_push _ key _ _))⟩
  refine ⟨h1, h2, h3, ?_, ?_⟩
  · intro i hi
    obtain ⟨l, hl⟩ := happ (idKey i)
    exact appends_isSome _ _ l hl info.found (h4 i hi)
  · intro c hc
    obtain ⟨l, hl⟩ := happ (classKey c)
    exact appends_isSome _ _ l hl info.found (h5 c hc)

theorem objGet_foldl_objSet_isSome {α γ : Type} (key : γ → Str) (val : γ → α)
    (skip : γ → Prop) [DecidablePred skip] (xs : List γ) (init : Obj α) (k : Str)
    (h : (objGet init k).isSome = true ∨ ∃ x ∈ xs, ¬ skip x ∧ key x = k) :
    (objGet (xs.foldl (fun acc x => if skip x then acc else objSet acc (key x) (val x)) init)
      k).isSome = true := by
  induction xs generalizing init with
  | nil =>
    rcases h with h | ⟨x, hx, _⟩
    · exact h
    · simp at hx
  | cons x xs ih =>
    rw [List.foldl_cons]
    apply ih
    rcases h with h | ⟨y, hy, hs, hk⟩
    · left
      by_cases hx : skip x
      · rw [if_pos hx]; exact h
      · rw [if_neg hx]; exact objGet_objSet_isSome _ _ _ _ h
    · rcases List.mem_cons.mp hy with rfl | hy
      · left
        rw [if_neg hs, objGet_objSet, if_pos hk]
        rfl
      · exact Or.inr ⟨y, hy, hs, hk⟩

theorem mem_declaredPages (spec : Obj SpecEntry) (pe : Str × Expected)
    (h : pe ∈ declaredPages spec) :
    pe.1 ≠ "meta".toList ∧ pe.1 ≠ "common".toList ∧
      ∃ entry, (pe.1, entry) ∈ spec ∧ pe.2.ids = entry.ids.getD [] ∧
        pe.2.classes = entry.classes.getD [] := by
  unfold declaredPages at h
  rw [foldl_objAssign (fun kv : Str × SpecEntry => kv.1) _
    (fun kv => kv.1 = "meta".toList ∨ kv.1 = "common".toList)] at h
  rcases mem_foldl_objSet (fun kv : Str × SpecEntry => kv.1) _
    (fun kv => (kv.1 = "meta".toList ∨ kv.1 = "common".toList) ∨ kv.1 = "__proto__".toList)
    _ [] pe h with h2 | ⟨kv, hkv, hs, he⟩
  · simp at h2
  · subst he
    simp only [not_or] at hs
    exact ⟨hs.1.1, hs.1.2, kv.2, hkv, rfl, rfl⟩

theorem checkTargets_isSome (dom : Browser.Dom) (fdata : Browser.FileData)
    (targetKeys : List Str) (report : Obj Browser.PageReport) (k : Str)
    (h : (objGet report k).isSome = true) :
    (objGet (targetKeys.foldl (fun report tk =>
        match objGet report tk with
        | some info => objSet report tk (Browser.checkAgainst dom fdata info)
        | none => report) report) k).isSome = true := by
  induction targetKeys generalizing report with
  | nil => exact h
  | cons tk tks ih =>
    rw [List.foldl_cons]
    apply ih
    cases hg : objGet report tk with
    | none => exact h
    | some info => exact objGet_objSet_isSome _ _ _ _ h

theorem nodup_objKeys_objSet {α : Type} (o : Obj α) (k : Str) (v : α)
    (h : (objKeys o).Nodup) : (objKeys (objSet o k v)).Nodup := by
  induction o with
  | nil => simp [objSet, objKeys]
  | cons hd t ih =>
    obtain ⟨k1, v1⟩ := hd
    have h2 : k1 ∉ objKeys t ∧ (objKeys t).Nodup :=
      List.nodup_cons.mp (show (k1 :: objKeys t).Nodup from h)
    by_cases h1 : k1 = k
    · simp only [objSet, h1, if_true, objKeys, List.map_cons]
      rw [← h1]
      exact h
    · have hn : k1 ∉ objKeys (objSet t k v) := by
        intro hm
        rcases mem_objKeys_objSet t k k1 v hm with h3 | h3
        · exact h2.1 h3
        · exact h1 h3
      have := ih h2.2
      simp only [objSet, h1, if_false, objKeys, List.map_cons, List.nodup_cons]
      exact ⟨hn, this⟩

theorem summary_none (rp : Obj PageReport) (hn : (objKeys rp).Nodup) (kr : Str × PageReport)
    (hkr : kr ∈ rp) (h1 : kr.2.missingIds = []) (h2 : kr.2.missingClasses = []) :
    objGet (summary rp) kr.1 = none := by
  cases hg : objGet (summary rp) kr.1 with
  | none => rfl
  | some m =>
    exfalso
    have hm := objGet_mem _ _ _ hg
    unfold summary at hm
    rcases mem_summary_foldl rp [] _ hm with h | ⟨pr, hpr, hc, he⟩
    · simp at h
    · have hpr2 : (kr.1, pr.2) ∈ rp := by
        have : (kr.1, pr.2) = pr := by
          simp only at he
          rw [he]
        rw [this]
        exact hpr
      have := eq_of_mem_nodup rp hn kr.1 kr.2 pr.2 hkr hpr2
      rw [← this, h1, h2] at hc
      simp at hc

theorem objGet_initFound_id (e : Expected) (x : Str) (hx : x ∈ e.ids) :
    objGet (initFound e) (idKey x) = some [] := by
  rw [objGet_initFound, if_pos]
  exact Or.inl (List.mem_map.mpr ⟨x, hx, rfl⟩)

theorem objGet_initFound_class (e : Expected) (c : Str) (hc : c ∈ e.classes) :
    objGet (initFound e) (classKey c) = some [] := by
  rw [objGet_initFound, if_pos]
  exact Or.inr (List.mem_map.mpr ⟨c, hc, rfl⟩)

theorem checkTargets_kept (dom : Browser.Dom) (pageSpec : Obj SpecEntry)
    (fdata : Browser.FileData) (targetKeys : List Str) (report : Obj Browser.PageReport)
    (h : ∀ kr ∈ report, Browser.Kept pageSpec kr) :
    ∀ kr ∈ targetKeys.foldl (fun report tk =>
        match objGet report tk with
        | some info => objSet report tk (Browser.checkAgainst dom fdata info)
        | none => report) report, Browser.Kept pageSpec kr := by
  induction targetKeys generalizing report with
  | nil => exact h
  | cons tk tks ih =>
    rw [List.foldl_cons]
    apply ih
    intro kr hkr
    cases hg : objGet report tk with
    | none =>
      rw [hg] at hkr
      exact h kr hkr
    | some info =>
      rw [hg] at hkr
      rcases mem_objSet _ _ _ _ hkr with h1 | h1
      · exact h kr h1
      · rw [h1]
        exact checkAgainst_kept dom fdata pageSpec tk info (h _ (objGet_mem _ _ _ hg))

theorem mem_pages_common (spec : Obj SpecEntry) (common : SpecEntry)
    (hc : objGet spec "common".toList = some common) (pe : Str × Expected)
    (h : pe ∈ pages spec) : Resolved spec common pe.1 pe.2.ids pe.2.classes := by
  unfold pages at h
  rw [hc] at h
  obtain ⟨pd, hpd, rfl⟩ := List.mem_map.mp h
  obtain ⟨h1, h2, entry, hin, hi, hcl⟩ := mem_declaredPages spec pd hpd
  refine ⟨h1, h2, ?_, ?_, nodup_arrayFromSet _, nodup_arrayFromSet _, entry, hin, ?_, ?_⟩
  · intro i hi2
    exact (mem_arrayFromSet _ _).mpr (List.mem_append_right _ hi2)
  · intro c hc2
    exact (mem_arrayFromSet _ _).mpr (List.mem_append_right _ hc2)
  · intro i hi2
    exact (mem_arrayFromSet _ _).mpr (List.mem_append_left _ (hi ▸ hi2))
  · intro c hc2
    exact (mem_arrayFromSet _ _).mpr (List.mem_append_left _ (hcl ▸ hc2))

theorem pages_isSome (spec : Obj SpecEntry) (ke : Str × SpecEntry) (hin : ke ∈ spec)
    (h1 : ke.1 ≠ "meta".toList) (h2 : ke.1 ≠ "common".toList)
    (h3 : ke.1 ≠ "__proto__".toList) :
    (objGet (pages spec) ke.1).isSome = true := by
  have hd : (objGet (declaredPages spec) ke.1).isSome = true := by
    unfold declaredPages
    rw [foldl_objAssign (fun kv : Str × SpecEntry => kv.1) _
      (fun kv => kv.1 = "meta".toList ∨ kv.1 = "common".toList)]
    exact objGet_foldl_objSet_isSome (fun kv : Str × SpecEntry => kv.1) _
      (fun kv => (kv.1 = "meta".toList ∨ kv.1 = "common".toList) ∨ kv.1 = "__proto__".toList)
      spec [] ke.1 (Or.inr ⟨ke, hin, fun h => h.elim (fun h => h.elim h1 h2) h3, rfl⟩)
  unfold pages
  cases objGet spec "common".toList with
  | none => exact hd
  | some common =>
    show (objGet ((declaredPages spec).map (fun kv => (kv.1, _))) ke.1).isSome = true
    rw [objGet_map_isSome]
    exact hd

theorem splitLines_lfHead (cs : Str) : splitLines ('\n' :: cs) = [] :: splitLines cs := by
  rw [splitLines.eq_def]
  simp

theorem splitLines_single (c : Char) (hc : c ≠ '\n') : splitLines [c] = [[c]] := by
  rw [splitLines.eq_def]
  simp [hc]

theorem splitLines_crlf (ds : Str) : splitLines ('\r' :: '\n' :: ds) = [] :: splitLines ds := by
  rw [splitLines.eq_def]
  simp

theorem splitLines_other (c d : Char) (ds : Str) (hc : c ≠ '\n') (hd : d ≠ '\n') :
    splitLines (c :: d :: ds) =
      match splitLines (d :: ds) with
      | [] => [[c]]
      | l :: ls => (c :: l) :: ls := by
  rw [splitLines.eq_def]
  simp [hc, hd]

theorem splitLines_noLF (l : Str) (h : '\n' ∉ l) : splitLines l = [l] := by
  induction l with
  | nil => rfl
  | cons c cs ih =>
    have hc : c ≠ '\n' := fun e => h (by simp [e])
    have hcs : '\n' ∉ cs := fun e => h (List.mem_cons_of_mem _ e)
    cases cs with
    | nil => exact splitLines_single c hc
    | cons d ds =>
      have hd : d ≠ '\n' := fun e => hcs (by simp [e])
      rw [splitLines_other c d ds hc hd, ih hcs]

theorem splitLines_lf (l rest : Str) (h : '\n' ∉ l) :
    splitLines (l ++ '\n' :: rest) = stripCR l :: splitLines rest := by
  induction l with
  | nil => exact splitLines_lfHead rest
  | cons c cs ih =>
    have hc : c ≠ '\n' := fun e => h (by simp [e])
    have hcs : '\n' ∉ cs := fun e => h (List.mem_cons_of_mem _ e)
    cases cs with
    | nil =>
      show splitLines (c :: '\n' :: rest) = _
      by_cases hr : c = '\r'
      · subst hr
        rw [splitLines_crlf]
        rfl
      · rw [splitLines.eq_def]
        simp only [hc, if_false, hr, false_and]
        rw [splitLines_lfHead]
        simp [stripCR, hr]
    | cons d ds =>
      have hd : d ≠ '\n' := fun e => hcs (by simp [e])
      show splitLines (c :: d :: (ds ++ '\n' :: rest)) = _
      rw [splitLines_other c d _ hc hd]
      have e1 : splitLines (d :: (ds ++ '\n' :: rest)) =
          stripCR (d :: ds) :: splitLines rest := ih hcs
      rw [e1]
      rfl

theorem splitLines_joinLines (ls : List Str) (hls : ∀ l ∈ ls, '\n' ∉ l) (i : Nat) (line : Str)
    (hi : ls[i]? = some line) :
    ∃ codeLine, (splitLines (joinLines ls))[i]? = some codeLine ∧
      (codeLine = line ∨ codeLine = stripCR line) := by
  induction ls generalizing i with
  | nil => simp at hi
  | cons l t ih =>
    cases t with
    | nil =>
      cases i with
      | zero =>
        simp only [List.getElem?_cons_zero, Option.some.injEq] at hi
        subst hi
        refine ⟨l, ?_, Or.inl rfl⟩
        show (splitLines l)[0]? = some l
        rw [splitLines_noLF l (hls l (List.mem_cons_self _ _))]
        rfl
      | succ j => simp at hi
    | cons l2 t2 =>
      have e : splitLines (joinLines (l :: l2 :: t2)) =
          stripCR l :: splitLines (joinLines (l2 :: t2)) :=
        splitLines_lf l _ (hls l (List.mem_cons_self _ _))
      rw [e]
      cases i with
      | zero =>
        simp only [List.getElem?_cons_zero, Option.some.injEq] at hi
        subst hi
        exact ⟨stripCR l, List.getElem?_cons_zero, Or.inr rfl⟩
      | succ j =>
        simp only [List.getElem?_cons_succ] at hi ⊢
        exact ih (fun l hl => hls l (List.mem_cons_of_mem _ hl)) j hi

theorem stripCR_append (s t : Str) (ht : t ≠ []) : stripCR (s ++ t) = s ++ stripCR t := by
  induction s with
  | nil => rfl
  | cons c s ih =>
    cases hst : s ++ t with
    | nil =>
      have : t = [] := (List.append_eq_nil.mp hst).2
      exact absurd this ht
    | cons d r =>
      show stripCR (c :: (s ++ t)) = c :: (s ++ stripCR t)
      rw [hst, stripCR, ← hst, ih]

theorem stripCR_quote_end (s b : Str) (q : Char) (hq : isQuote q = true) :
    ∃ b2, stripCR (s ++ q :: b) = s ++ q :: b2 := by
  cases b with
  | nil =>
    refine ⟨[], ?_⟩
    rw [stripCR_append s [q] (by simp)]
    have hr : q ≠ '\r' := by
      intro e
      rw [e] at hq
      exact absurd hq (by decide)
    simp [stripCR, hr]
  | cons d b =>
    refine ⟨stripCR (d :: b), ?_⟩
    rw [stripCR_append s (q :: d :: b) (by simp)]
    rfl

theorem dropWhile_run (p : Char → Bool) (ws : Str) (e : Char) (rest : Str)
    (hws : ∀ c ∈ ws, p c = true) (he : p e = false) :
    (ws ++ e :: rest).dropWhile p = e :: rest := by
  induction ws with
  | nil => simp [List.dropWhile, he]
  | cons c cs ih =>
    have hc : p c = true := hws c (List.mem_cons_self _ _)
    show List.dropWhile p (c :: (cs ++ e :: rest)) = e :: rest
    rw [List.dropWhile_cons, hc]
    simp only [if_true]
    exact ih (fun d hd => hws d (List.mem_cons_of_mem _ hd))

theorem takeWhile_run (p : Char → Bool) (ws : Str) (e : Char) (rest : Str)
    (hws : ∀ c ∈ ws, p c = true) (he : p e = false) :
    (ws ++ e :: rest).takeWhile p = ws := by
  induction ws with
  | nil => simp [List.takeWhile, he]
  | cons c cs ih =>
    have hc : p c = true := hws c (List.mem_cons_self _ _)
    show List.takeWhile p (c :: (cs ++ e :: rest)) = c :: cs
    rw [List.takeWhile_cons, hc]
    simp only [if_true]
    rw [ih (fun d hd => hws d (List.mem_cons_of_mem _ hd))]

theorem isSpace_of_isQuote (q : Char) (hq : isQuote q = true) : isSpace q = false := by
  have h : q = '"' ∨ q = '\'' := by simpa [isQuote] using hq
  rcases h with rfl | rfl <;> decide

theorem notQuote_of_isQuote (q : Char) (hq : isQuote q = true) : notQuote q = false := by
  simp [notQuote, hq]

theorem valueHere_assign (ws1 ws2 v b : Str) (q1 q2 : Char)
    (hws1 : ∀ c ∈ ws1, isSpace c = true) (hws2 : ∀ c ∈ ws2, isSpace c = true)
    (hq1 : isQuote q1 = true) (hq2 : isQuote q2 = true) (hv : ∀ c ∈ v, notQuote c = true) :
    valueHere ('i' :: 'd' :: (ws1 ++ '=' :: (ws2 ++ q1 :: (v ++ q2 :: b)))) = some v := by
  unfold valueHere
  simp only [and_self, if_true]
  rw [dropWhile_run isSpace ws1 '=' _ hws1 (by decide)]
  simp only [if_true]
  rw [dropWhile_run isSpace ws2 q1 _ hws2 (isSpace_of_isQuote q1 hq1)]
  simp only
  rw [dropWhile_run notQuote v q2 b hv (notQuote_of_isQuote q2 hq2),
    takeWhile_run notQuote v q2 b hv (notQuote_of_isQuote q2 hq2)]
  simp [hq1]

theorem mem_idValues_append (a t v : Str) (h : v ∈ idValues t) : v ∈ idValues (a ++ t) := by
  induction a with
  | nil => exact h
  | cons c a ih =>
    show v ∈ idValues (c :: (a ++ t))
    rw [idValues]
    exact List.mem_append_right _ ih

theorem quote_prefix (x : Str) :
    (∀ c ∈ x, notQuote c = true) ∨
      ∃ v q x2, x = v ++ q :: x2 ∧ (∀ c ∈ v, notQuote c = true) ∧ isQuote q = true := by
  induction x with
  | nil => exact Or.inl (by simp)
  | cons c cs ih =>
    by_cases hc : isQuote c = true
    · exact Or.inr ⟨[], c, cs, rfl, by simp, hc⟩
    · have hn : notQuote c = true := by simp [notQuote, hc]
      rcases ih with h | ⟨v, q, x2, rfl, hv, hq⟩
      · left
        intro d hd
        rcases List.mem_cons.mp hd with rfl | hd
        · exact hn
        · exact h d hd
      · right
        refine ⟨c :: v, q, x2, rfl, ?_, hq⟩
        intro d hd
        rcases List.mem_cons.mp hd with rfl | hd
        · exact hn
        · exact hv d hd

section Lemmas

variable [CaseTables]

theorem mem_ends_iff (ic : Bool) (r : Re) (prev : Option Char) (s : Str)
    (x : Option Char × Str) :
    x ∈ r.ends ic prev s ↔
      ∃ w, s = w ++ x.2 ∧ x.1 = lastChar prev w ∧ r.Matches ic prev w x.2 := by
  induction r generalizing prev s x with
  | eps =>
    simp only [Re.ends, Re.Matches, List.mem_singleton]
    constructor
    · rintro rfl
      exact ⟨[], rfl, rfl, rfl⟩
    · rintro ⟨w, hw, hx, rfl⟩
      exact Prod.ext hx (by simpa using hw.symm)
  | chr c =>
    cases s with
    | nil =>
      simp only [Re.ends, Re.Matches, List.not_mem_nil, false_iff]
      rintro ⟨w, hw, _, d, rfl, _⟩
      simp at hw
    | cons d t =>
      simp only [Re.ends, Re.Matches]
      constructor
      · intro h
        by_cases hc : sameChar ic c d = true
        · simp only [hc, if_true, List.mem_singleton] at h
          subst h
          exact ⟨[d], rfl, rfl, d, rfl, hc⟩
        · simp [hc] at h
      · rintro ⟨w, hw, hx, e, rfl, he⟩
        simp only [List.singleton_append, List.cons.injEq] at hw
        obtain ⟨rfl, h2⟩ := hw
        simp only [he, if_true, List.mem_singleton]
        exact Prod.ext hx h2.symm
  | set p =>
    cases s with
    | nil =>
      simp only [Re.ends, Re.Matches, List.not_mem_nil, false_iff]
      rintro ⟨w, hw, _, d, rfl, _⟩
      simp at hw
    | cons d t =>
      simp only [Re.ends, Re.Matches]
      constructor
      · intro h
        by_cases hc : p d = true
        · simp only [hc, if_true, List.mem_singleton] at h
          subst h
          exact ⟨[d], rfl, rfl, d, rfl, hc⟩
        · simp [hc] at h
      · rintro ⟨w, hw, hx, e, rfl, he⟩
        simp only [List.singleton_append, List.cons.injEq] at hw
        obtain ⟨rfl, h2⟩ := hw
        simp only [he, if_true, List.mem_singleton]
        exact Prod.ext hx h2.symm
  | many p =>
    simp only [Re.ends, Re.Matches]
    exact mem_manyEnds p prev s x
  | bol =>
    simp only [Re.ends, Re.Matches]
    constructor
    · intro h
      cases prev with
      | none =>
        simp only [Option.isNone_none, if_true, List.mem_singleton] at h
        subst h
        exact ⟨[], rfl, rfl, rfl, rfl⟩
      | some c => simp at h
    · rintro ⟨w, hw, hx, rfl, rfl⟩
      simp only [Option.isNone_none, if_true, List.mem_singleton]
      exact Prod.ext hx (by simpa using hw.symm)
  | eol =>
    simp only [Re.ends, Re.Matches]
    constructor
    · intro h
      cases s with
      | nil =>
        simp only [List.isEmpty_nil, if_true, List.mem_singleton] at h
        subst h
        exact ⟨[], rfl, rfl, rfl, rfl⟩
      | cons c t => simp at h
    · rintro ⟨w, hw, hx, rfl, h2⟩
      simp only [List.nil_append] at hw
      subst hw
      simp only [h2, List.isEmpty_nil, if_true, List.mem_singleton]
      exact Prod.ext hx h2
  | wordB =>
    simp only [Re.ends, Re.Matches]
    constructor
    · intro h
      by_cases hb : (isWordAt prev != isWordAt s.head?) = true
      · simp only [hb, if_true, List.mem_singleton] at h
        subst h
        exact ⟨[], rfl, rfl, rfl, by simpa using hb⟩
      · simp [hb] at h
    · rintro ⟨w, hw, hx, rfl, h2⟩
      simp only [List.nil_append] at hw
      subst hw
      have hb : (isWordAt prev != isWordAt x.2.head?) = true := by simpa using h2
      simp only [hb, if_true, List.mem_singleton]
      exact Prod.ext hx rfl
  | seq a b iha ihb =>
    simp only [Re.ends, Re.Matches, List.mem_flatMap]
    constructor
    · rintro ⟨y, hy, hx⟩
      obtain ⟨w1, hs, hy1, hm1⟩ := (iha prev s y).mp hy
      obtain ⟨w2, hs2, hx1, hm2⟩ := (ihb y.1 y.2 x).mp hx
      refine ⟨w1 ++ w2, by rw [hs, hs2, List.append_assoc], ?_, w1, w2, rfl, ?_, ?_⟩
      · rw [hx1, hy1, lastChar_append]
      · rw [← hs2]; exact hm1
      · rw [← hy1]; exact hm2
    · rintro ⟨w, hs, hx1, w1, w2, rfl, hm1, hm2⟩
      refine ⟨(lastChar prev w1, w2 ++ x.2), ?_, ?_⟩
      · exact (iha prev s _).mpr ⟨w1, by rw [hs, List.append_assoc], rfl, hm1⟩
      · exact (ihb _ _ x).mpr ⟨w2, rfl, by rw [hx1, lastChar_append], hm2⟩
  | alt a b iha ihb =>
    simp only [Re.ends, Re.Matches, List.mem_append, iha, ihb]
    constructor
    · rintro (⟨w, h1, h2, h3⟩ | ⟨w, h1, h2, h3⟩)
      · exact ⟨w, h1, h2, Or.inl h3⟩
      · exact ⟨w, h1, h2, Or.inr h3⟩
    · rintro ⟨w, h1, h2, h3 | h3⟩
      · exact Or.inl ⟨w, h1, h2, h3⟩
      · exact Or.inr ⟨w, h1, h2, h3⟩

theorem ends_nonempty_iff (ic : Bool) (r : Re) (prev : Option Char) (s : Str) :
    (!(r.ends ic prev s).isEmpty) = true ↔ ∃ w b, s = w ++ b ∧ r.Matches ic prev w b := by
  constructor
  · intro h
    cases hl : r.ends ic prev s with
    | nil => simp [hl] at h
    | cons x t =>
      have hx : x ∈ r.ends ic prev s := by rw [hl]; exact List.mem_cons_self _ _
      obtain ⟨w, hs, _, hm⟩ := (mem_ends_iff ic r prev s x).mp hx
      exact ⟨w, x.2, hs, hm⟩
  · rintro ⟨w, b, hs, hm⟩
    have hx : (lastChar prev w, b) ∈ r.ends ic prev s :=
      (mem_ends_iff ic r prev s _).mpr ⟨w, hs, rfl, hm⟩
    cases hl : r.ends ic prev s with
    | nil => rw [hl] at hx; simp at hx
    | cons x t => simp

theorem searchFrom_iff (ic : Bool) (r : Re) (prev : Option Char) (s : Str) :
    searchFrom ic r prev s = true ↔
      ∃ a w b, s = a ++ w ++ b ∧ r.Matches ic (lastChar prev a) w b := by
  induction s generalizing prev with
  | nil =>
    rw [searchFrom, ends_nonempty_iff]
    constructor
    · rintro ⟨w, b, hs, hm⟩
      exact ⟨[], w, b, by simpa using hs, hm⟩
    · rintro ⟨a, w, b, hs, hm⟩
      have ha : a = [] := by
        cases a with
        | nil => rfl
        | cons x y => simp at hs
      subst ha
      exact ⟨w, b, by simpa using hs, hm⟩
  | cons c cs ih =>
    rw [searchFrom, Bool.or_eq_true, ends_nonempty_iff, ih]
    constructor
    · rintro (⟨w, b, hs, hm⟩ | ⟨a, w, b, hs, hm⟩)
      · exact ⟨[], w, b, by simpa using hs, hm⟩
      · exact ⟨c :: a, w, b, by simp [hs], hm⟩
    · rintro ⟨a, w, b, hs, hm⟩
      cases a with
      | nil => exact Or.inl ⟨w, b, by simpa using hs, hm⟩
      | cons d a =>
        simp only [List.cons_append, List.cons.injEq] at hs
        obtain ⟨rfl, hs2⟩ := hs
        exact Or.inr ⟨a, w, b, hs2, hm⟩

theorem test_iff (re : RegExp) (s : Str) :
    re.test s = true ↔
      ∃ a w b, s = a ++ w ++ b ∧ re.pattern.Matches re.ignoreCase (lastChar none a) w b :=
  searchFrom_iff re.ignoreCase re.pattern none s

theorem sameChar_refl (ic : Bool) (c : Char) : sameChar ic c c = true := by
  cases ic <;> simp [sameChar]

theorem sameText_refl (ic : Bool) (s : Str) : sameText ic s s = true := by
  induction s with
  | nil => rfl
  | cons c cs ih => simp [sameText, sameChar_refl, ih]

theorem sameText_exact (x v : Str) : sameText false x v = true ↔ x = v := by
  induction x generalizing v with
  | nil => cases v <;> simp [sameText]
  | cons c cs ih =>
    cases v with
    | nil => simp [sameText]
    | cons d ds => simp [sameText, sameChar, ih]

theorem sameText_length (ic : Bool) (x v : Str) (h : sameText ic x v = true) :
    x.length = v.length := by
  induction x generalizing v with
  | nil => cases v <;> simp_all [sameText]
  | cons c cs ih =>
    cases v with
    | nil => simp [sameText] at h
    | cons d ds =>
      simp only [sameText, Bool.and_eq_true] at h
      simp [ih ds h.2]

theorem matches_litSeq (ic : Bool) (x : Str) (prev : Option Char) (w rest : Str) :
    (litSeq x).Matches ic prev w rest ↔ sameText ic x w = true := by
  induction x generalizing prev w with
  | nil =>
    cases w <;> simp [litSeq, Re.Matches, sameText]
  | cons c cs ih =>
    simp only [litSeq, Re.Matches]
    constructor
    · rintro ⟨w1, w2, rfl, ⟨d, rfl, hd⟩, h2⟩
      simp [sameText, hd, (ih _ _).mp h2]
    · intro h
      cases w with
      | nil => simp [sameText] at h
      | cons d ds =>
        simp only [sameText, Bool.and_eq_true] at h
        exact ⟨[d], ds, rfl, ⟨d, rfl, h.1⟩, (ih _ _).mpr h.2⟩

theorem sameChar_eqSign (ic : Bool) (e : Char) : sameChar ic '=' e = true ↔ e = '=' := by
  cases ic
  · simp only [sameChar, Bool.false_eq_true, if_false, beq_iff_eq]
    exact eq_comm
  · simp only [sameChar, if_true, beq_iff_eq]
    constructor
    · intro h
      exact CaseTables.upper_eqSign e h.symm
    · rintro rfl
      rfl

theorem matches_idRegex (cs : Bool) (x : Str) (prev : Option Char) (w rest : Str) :
    (idRegex cs x).pattern.Matches (!cs) prev w rest ↔
      ∃ n1 n2 ws1 ws2 q1 v q2,
        w = n1 :: n2 :: ws1 ++ '=' :: ws2 ++ q1 :: v ++ [q2] ∧
        sameChar (!cs) 'i' n1 = true ∧ sameChar (!cs) 'd' n2 = true ∧
        (∀ c ∈ ws1, isSpace c = true) ∧ (∀ c ∈ ws2, isSpace c = true) ∧
        isQuote q1 = true ∧ isQuote q2 = true ∧ sameText (!cs) x v = true := by
  simp only [idRegex, seqAll, interpolated_escapeRegExp, Re.Matches, matches_litSeq]
  constructor
  · rintro ⟨_, _, rfl, ⟨n1, rfl, h1⟩, _, _, rfl, ⟨n2, rfl, h2⟩, ws1, _, rfl, hws1, _, _, rfl,
      ⟨e, rfl, he⟩, ws2, _, rfl, hws2, _, _, rfl, ⟨q1, rfl, hq1⟩, v, _, rfl, hv, _, _, rfl,
      ⟨q2, rfl, hq2⟩, rfl⟩
    rw [sameChar_eqSign] at he
    subst he
    exact ⟨n1, n2, ws1, ws2, q1, v, q2, by simp, h1, h2, hws1, hws2, hq1, hq2, hv⟩
  · rintro ⟨n1, n2, ws1, ws2, q1, v, q2, hw, h1, h2, hws1, hws2, hq1, hq2, hv⟩
    have hw2 : w = [n1] ++ ([n2] ++ (ws1 ++ (['='] ++ (ws2 ++ ([q1] ++ (v ++ ([q2] ++ []))))))) := by
      rw [hw]; simp
    rw [hw2]
    exact ⟨[n1], _, rfl, ⟨n1, rfl, h1⟩, [n2], _, rfl, ⟨n2, rfl, h2⟩, ws1, _, rfl, hws1,
      ['='], _, rfl, ⟨'=', rfl, sameChar_refl _ _⟩, ws2, _, rfl, hws2, [q1], _, rfl,
      ⟨q1, rfl, hq1⟩, v, _, rfl, hv, [q2], [], rfl, ⟨q2, rfl, hq2⟩, rfl⟩

theorem idRegex_test_iff (cs : Bool) (x text : Str) :
    (idRegex cs x).test text = true ↔ IdAssign cs x text := by
  rw [test_iff]
  have hi : (idRegex cs x).ignoreCase = !cs := rfl
  rw [hi]
  simp only [matches_idRegex, IdAssign]
  constructor
  · rintro ⟨a, w, b, rfl, n1, n2, ws1, ws2, q1, v, q2, rfl, h⟩
    exact ⟨a, n1, n2, ws1, ws2, q1, v, q2, b, rfl, h⟩
  · rintro ⟨a, n1, n2, ws1, ws2, q1, v, q2, b, rfl, h⟩
    exact ⟨a, _, b, rfl, n1, n2, ws1, ws2, q1, v, q2, rfl, h⟩

theorem sameText_nil_left (ic : Bool) (v : Str) : sameText ic [] v = true ↔ v = [] := by
  cases v <;> simp [sameText]

theorem sameText_cons_left (ic : Bool) (a : Char) (as v : Str) :
    sameText ic (a :: as) v = true ↔
      ∃ b bs, v = b :: bs ∧ sameChar ic a b = true ∧ sameText ic as bs = true := by
  cases v with
  | nil => simp [sameText]
  | cons b bs =>
    simp only [sameText, Bool.and_eq_true]
    constructor
    · rintro ⟨h1, h2⟩
      exact ⟨b, bs, rfl, h1, h2⟩
    · rintro ⟨b1, bs1, he, h1, h2⟩
      obtain ⟨rfl, rfl⟩ := List.cons.inj he
      exact ⟨h1, h2⟩

theorem matches_classRegex (cs : Bool) (c : Str) (prev : Option Char) (w rest : Str) :
    (classRegex cs c).pattern.Matches (!cs) prev w rest ↔
      ∃ n ws1 ws2 q1 v1 s1 t s2 v2 q2,
        w = n ++ ws1 ++ '=' :: ws2 ++ q1 :: v1 ++ s1 :: t ++ s2 :: v2 ++ [q2] ∧
        sameText (!cs) ['c', 'l', 'a', 's', 's'] n = true ∧
        (∀ x ∈ ws1, isSpace x = true) ∧ (∀ x ∈ ws2, isSpace x = true) ∧
        isQuote q1 = true ∧ (∀ x ∈ v1, notQuote x = true) ∧ isSpace s1 = true ∧
        sameText (!cs) c t = true ∧ isSpace s2 = true ∧ (∀ x ∈ v2, notQuote x = true) ∧
        isQuote q2 = true := by
  simp only [classRegex, seqAll, interpolated_escapeRegExp, Re.Matches, matches_litSeq]
  constructor
  · rintro ⟨_, _, rfl, ⟨c1, rfl, h1⟩, _, _, rfl, ⟨c2, rfl, h2⟩, _, _, rfl, ⟨c3, rfl, h3⟩,
      _, _, rfl, ⟨c4, rfl, h4⟩, _, _, rfl, ⟨c5, rfl, h5⟩, ws1, _, rfl, hws1, _, _, rfl,
      ⟨e, rfl, he⟩, ws2, _, rfl, hws2, _, _, rfl, ⟨q1, rfl, hq1⟩, v1, _, rfl, hv1,
      _, _, rfl, hs1, t, _, rfl, ht, _, _, rfl, hs2, v2, _, rfl, hv2, _, _, rfl,
      ⟨q2, rfl, hq2⟩, rfl⟩
    rw [sameChar_eqSign] at he
    subst he
    rcases hs1 with ⟨_, hb⟩ | ⟨s1, rfl, hs1⟩
    · exfalso
      simp only [lastChar] at hb
      exact lastChar_some_ne_none _ _ hb
    rcases hs2 with ⟨s2, rfl, hs2⟩ | ⟨_, hb⟩
    · exact ⟨[c1, c2, c3, c4, c5], ws1, ws2, q1, v1, s1, t, s2, v2, q2, by simp,
        by simp [sameText, h1, h2, h3, h4, h5], hws1, hws2, hq1, hv1, hs1, ht, hs2, hv2, hq2⟩
    · simp at hb
  · rintro ⟨n, ws1, ws2, q1, v1, s1, t, s2, v2, q2, hw, hn, hws1, hws2, hq1, hv1, hs1, ht, hs2,
      hv2, hq2⟩
    rw [sameText_cons_left] at hn
    obtain ⟨c1, n1, rfl, h1, hn⟩ := hn
    rw [sameText_cons_left] at hn
    obtain ⟨c2, n2, rfl, h2, hn⟩ := hn
    rw [sameText_cons_left] at hn
    obtain ⟨c3, n3, rfl, h3, hn⟩ := hn
    rw [sameText_cons_left] at hn
    obtain ⟨c4, n4, rfl, h4, hn⟩ := hn
    rw [sameText_cons_left] at hn
    obtain ⟨c5, n5, rfl, h5, hn⟩ := hn
    rw [sameText_nil_left] at hn
    subst hn
    have hw2 : w = [c1] ++ ([c2] ++ ([c3] ++ ([c4] ++ ([c5] ++ (ws1 ++ (['='] ++ (ws2 ++
        ([q1] ++ (v1 ++ ([s1] ++ (t ++ ([s2] ++ (v2 ++ ([q2] ++ [])))))))))))))) := by
      rw [hw]; simp
    rw [hw2]
    exact ⟨[c1], _, rfl, ⟨c1, rfl, h1⟩, [c2], _, rfl, ⟨c2, rfl, h2⟩, [c3], _, rfl,
      ⟨c3, rfl, h3⟩, [c4], _, rfl, ⟨c4, rfl, h4⟩, [c5], _, rfl, ⟨c5, rfl, h5⟩, ws1, _, rfl,
      hws1, ['='], _, rfl, ⟨'=', rfl, sameChar_refl _ _⟩, ws2, _, rfl, hws2, [q1], _, rfl,
      ⟨q1, rfl, hq1⟩, v1, _, rfl, hv1, [s1], _, rfl, Or.inr ⟨s1, rfl, hs1⟩, t, _, rfl, ht,
      [s2], _, rfl, Or.inl ⟨s2, rfl, hs2⟩, v2, _, rfl, hv2, [q2], [], rfl, ⟨q2, rfl, hq2⟩,
      rfl⟩

theorem classRegex_test_iff (cs : Bool) (c text : Str) :
    (classRegex cs c).test text = true ↔ ClassAssign cs c text := by
  rw [test_iff]
  have hi : (classRegex cs c).ignoreCase = !cs := rfl
  rw [hi]
  simp only [matches_classRegex, ClassAssign]
  constructor
  · rintro ⟨a, w, b, rfl, n, ws1, ws2, q1, v1, s1, t, s2, v2, q2, rfl, h⟩
    exact ⟨a, n, ws1, ws2, q1, v1, s1, t, s2, v2, q2, b, rfl, h⟩
  · rintro ⟨a, n, ws1, ws2, q1, v1, s1, t, s2, v2, q2, b, rfl, h⟩
    exact ⟨a, _, b, rfl, n, ws1, ws2, q1, v1, s1, t, s2, v2, q2, rfl, h⟩

theorem wordRegex_test_iff (cs : Bool) (x text : Str) :
    (wordRegex cs x).test text = true ↔ WholeWord cs x text := by
  rw [test_iff]
  have hi : (wordRegex cs x).ignoreCase = !cs := rfl
  rw [hi]
  simp only [wordRegex, seqAll, interpolated_escapeRegExp, Re.Matches, matches_litSeq, WholeWord]
  constructor
  · rintro ⟨a, _, b, rfl, _, _, rfl, ⟨rfl, hb1⟩, w, _, rfl, hw, _, _, rfl, ⟨rfl, hb2⟩, rfl⟩
    refine ⟨a, w, b, by simp, hw, ?_, ?_⟩
    · simpa using hb1
    · simpa [lastChar, lastChar_append] using hb2
  · rintro ⟨a, w, b, rfl, hw, hb1, hb2⟩
    refine ⟨a, w, b, rfl, [], w, rfl, ⟨rfl, ?_⟩, w, [], by simp, hw, [], [], rfl, ⟨rfl, ?_⟩, rfl⟩
    · simpa using hb1
    · simpa [lastChar, lastChar_append] using hb2

theorem appends_scanLines (re : RegExp) (key f : Str) (lines : List Str) (k : Str) :
    Appends (scanLines re key f lines) k (lineHits re key f lines k) := by
  unfold scanLines lineHits
  exact appends_foldl _ k _ lines.enum (fun il => appends_push key k _ _)

theorem appends_scanCandidate (cs : Bool) (e : Expected) (fc : Str → Str) (k f : Str) :
    Appends (fun fd => scanCandidate cs e fc fd f) k (candidateHits cs e fc k f) := by
  unfold scanCandidate candidateHits
  exact appends_comp _ _ k _ _
    (appends_foldl _ k _ e.ids (fun id => appends_scanLines _ _ _ _ k))
    (appends_foldl _ k _ e.classes (fun c => appends_scanLines _ _ _ _ k))

theorem appends_scanWhole (cs : Bool) (e : Expected) (fc : Str → Str) (k f : Str) :
    Appends (fun fd => scanWhole cs e fc fd f) k (wholeHits cs e fc k f) := by
  unfold scanWhole wholeHits
  exact appends_comp _ _ k _ _
    (appends_foldl _ k _ e.ids (fun id => appends_push _ k _ _))
    (appends_foldl _ k _ e.classes (fun c => appends_push _ k _ _))

theorem appends_scanPdf (cs : Bool) (e : Expected) (pdfPath pdfText k : Str) :
    Appends (scanPdf cs e pdfPath pdfText) k (pdfHits cs e pdfPath pdfText k) := by
  unfold scanPdf pdfHits
  by_cases hp : pdfText.isEmpty = true
  · simp only [hp, if_true]
    exact appends_skip k
  · simp only [hp, if_false]
    exact appends_comp _ _ k _ _
      (appends_foldl _ k _ e.ids (fun id => appends_push _ k _ _))
      (appends_foldl _ k _ e.classes (fun c => appends_push _ k _ _))

theorem objGet_foundOf (cs : Bool) (files : List Str) (fc : Str → Str) (pdfPath pdfText : Str)
    (pageName : Str) (e : Expected) (k : Str) :
    objGet (foundOf cs files fc pdfPath pdfText pageName e) k =
      (objGet (initFound e) k).map
        (fun old => old ++ allHits cs files fc pdfPath pdfText pageName e k) := by
  have h1 := appends_foldl (scanCandidate cs e fc) k (candidateHits cs e fc k)
    (candidates files pageName) (fun f => appends_scanCandidate cs e fc k f)
  have h2 : Appends (fun fd => if (candidates files pageName).length = 0 then
      files.foldl (scanWhole cs e fc) fd else fd) k
      (if (candidates files pageName).length = 0 then
        files.flatMap (wholeHits cs e fc k) else []) := by
    by_cases hc : (candidates files pageName).length = 0
    · simp only [hc, if_true]
      exact appends_foldl (scanWhole cs e fc) k _ files (fun f => appends_scanWhole cs e fc k f)
    · simp only [hc, if_false]
      exact appends_skip k
  have h3 := appends_scanPdf cs e pdfPath pdfText k
  have h := appends_comp _ _ k _ _ (appends_comp _ _ k _ _ h1 h2) h3
  exact h (initFound e)

theorem found_id (cs : Bool) (files : List Str) (fc : Str → Str) (pdfPath pdfText : Str)
    (pageName : Str) (e : Expected) (x : Str) (hx : x ∈ e.ids) :
    objGet (foundOf cs files fc pdfPath pdfText pageName e) (idKey x) =
      some (allHits cs files fc pdfPath pdfText pageName e (idKey x)) := by
  rw [objGet_foundOf, objGet_initFound_id e x hx]
  simp

theorem found_class (cs : Bool) (files : List Str) (fc : Str → Str) (pdfPath pdfText : Str)
    (pageName : Str) (e : Expected) (c : Str) (hc : c ∈ e.classes) :
    objGet (foundOf cs files fc pdfPath pdfText pageName e) (classKey c) =
      some (allHits cs files fc pdfPath pdfText pageName e (classKey c)) := by
  rw [objGet_foundOf, objGet_initFound_class e c hc]
  simp

theorem mem_lineHits (re : RegExp) (key f : Str) (lines : List Str) (k : Str)
    (o : Occurrence) :
    o ∈ lineHits re key f lines k ↔
      key = k ∧ ∃ i ln, lines[i]? = some ln ∧ re.test ln = true ∧
        o = { file := f, line := i + 1, excerpt := trim ln } := by
  unfold lineHits
  rw [List.mem_flatMap]
  constructor
  · rintro ⟨⟨i, ln⟩, hm, ho⟩
    by_cases hc : re.test ln = true ∧ key = k
    · simp only [hc, and_self, if_true, List.mem_singleton] at ho
      exact ⟨hc.2, i, ln, List.mem_enum_iff_getElem?.mp hm, hc.1, ho⟩
    · simp [hc] at ho
  · rintro ⟨hk, i, ln, hl, ht, ho⟩
    refine ⟨(i, ln), List.mem_enum_iff_getElem?.mpr hl, ?_⟩
    simp [ht, hk, ho]

theorem mem_candidateHits_id (cs : Bool) (e : Expected) (fc : Str → Str) (x f : Str)
    (o : Occurrence) :
    o ∈ candidateHits cs e fc (idKey x) f ↔
      x ∈ e.ids ∧ ∃ i ln, (splitLines (fc f))[i]? = some ln ∧ (idRegex cs x).test ln = true ∧
        o = { file := f, line := i + 1, excerpt := trim ln } := by
  unfold candidateHits
  simp only [List.mem_append, List.mem_flatMap, mem_lineHits, idKey_inj]
  constructor
  · rintro (⟨id, hid, rfl, h⟩ | ⟨c, _, hk, _⟩)
    · exact ⟨hid, h⟩
    · exact absurd hk.symm (idKey_ne_classKey x c)
  · rintro ⟨hx, h⟩
    exact Or.inl ⟨x, hx, rfl, h⟩

theorem mem_candidateHits_class (cs : Bool) (e : Expected) (fc : Str → Str) (c f : Str)
    (o : Occurrence) :
    o ∈ candidateHits cs e fc (classKey c) f ↔
      c ∈ e.classes ∧ ∃ i ln, (splitLines (fc f))[i]? = some ln ∧
        (classRegex cs c).test ln = true ∧
        o = { file := f, line := i + 1, excerpt := trim ln } := by
  unfold candidateHits
  simp only [List.mem_append, List.mem_flatMap, mem_lineHits, classKey_inj]
  constructor
  · rintro (⟨id, _, hk, _⟩ | ⟨c2, hc, rfl, h⟩)
    · exact absurd hk (idKey_ne_classKey id c)
    · exact ⟨hc, h⟩
  · rintro ⟨hx, h⟩
    exact Or.inr ⟨c, hx, rfl, h⟩

theorem mem_wholeHits_id (cs : Bool) (e : Expected) (fc : Str → Str) (x f : Str)
    (o : Occurrence) :
    o ∈ wholeHits cs e fc (idKey x) f ↔
      x ∈ e.ids ∧ (idRegex cs x).test (fc f) = true ∧ o = fallbackOccurrence f := by
  unfold wholeHits
  simp only [List.mem_append, List.mem_flatMap]
  constructor
  · rintro (⟨id, hid, ho⟩ | ⟨c, _, ho⟩)
    · by_cases hc : (idRegex cs id).test (fc f) = true ∧ idKey id = idKey x
      · simp only [hc, and_self, if_true, List.mem_singleton] at ho
        have hx := (idKey_inj id x).mp hc.2
        subst hx
        exact ⟨hid, hc.1, ho⟩
      · simp [hc] at ho
    · have hc : ¬ ((classRegex cs c).test (fc f) = true ∧ classKey c = idKey x) :=
        fun h => idKey_ne_classKey x c h.2.symm
      simp [hc] at ho
  · rintro ⟨hx, ht, ho⟩
    exact Or.inl ⟨x, hx, by simp [ht, ho]⟩

theorem mem_wholeHits_class (cs : Bool) (e : Expected) (fc : Str → Str) (c f : Str)
    (o : Occurrence) :
    o ∈ wholeHits cs e fc (classKey c) f ↔
      c ∈ e.classes ∧ (classRegex cs c).test (fc f) = true ∧ o = fallbackOccurrence f := by
  unfold wholeHits
  simp only [List.mem_append, List.mem_flatMap]
  constructor
  · rintro (⟨id, _, ho⟩ | ⟨c2, hc2, ho⟩)
    · have hc : ¬ ((idRegex cs id).test (fc f) = true ∧ idKey id = classKey c) :=
        fun h => idKey_ne_classKey id c h.2
      simp [hc] at ho
    · by_cases hc : (classRegex cs c2).test (fc f) = true ∧ classKey c2 = classKey c
      · simp only [hc, and_self, if_true, List.mem_singleton] at ho
        have hx := (classKey_inj c2 c).mp hc.2
        subst hx
        exact ⟨hc2, hc.1, ho⟩
      · simp [hc] at ho
  · rintro ⟨hx, ht, ho⟩
    exact Or.inr ⟨c, hx, by simp [ht, ho]⟩

theorem mem_pdfHits_id (cs : Bool) (e : Expected) (pdfPath pdfText x : Str) (o : Occurrence) :
    o ∈ pdfHits cs e pdfPath pdfText (idKey x) ↔
      pdfText ≠ [] ∧ x ∈ e.ids ∧ (wordRegex cs x).test pdfText = true ∧
        o = pdfOccurrence pdfPath := by
  unfold pdfHits
  by_cases hp : pdfText = []
  · simp [hp]
  · have hp2 : ¬ pdfText.isEmpty = true := by simpa using hp
    rw [if_neg hp2]
    simp only [List.mem_append, List.mem_flatMap]
    constructor
    · rintro (⟨id, hid, ho⟩ | ⟨c, _, ho⟩)
      · by_cases hc : (wordRegex cs id).test pdfText = true ∧ idKey id = idKey x
        · simp only [hc, and_self, if_true, List.mem_singleton] at ho
          have hx := (idKey_inj id x).mp hc.2
          subst hx
          exact ⟨hp, hid, hc.1, ho⟩
        · simp [hc] at ho
      · have hc : ¬ ((wordRegex cs c).test pdfText = true ∧ classKey c = idKey x) :=
          fun h => idKey_ne_classKey x c h.2.symm
        simp [hc] at ho
    · rintro ⟨_, hx, ht, ho⟩
      exact Or.inl ⟨x, hx, by simp [ht, ho]⟩

theorem mem_pdfHits_class (cs : Bool) (e : Expected) (pdfPath pdfText c : Str)
    (o : Occurrence) :
    o ∈ pdfHits cs e pdfPath pdfText (classKey c) ↔
      pdfText ≠ [] ∧ c ∈ e.classes ∧ (wordRegex cs c).test pdfText = true ∧
        o = pdfOccurrence pdfPath := by
  unfold pdfHits
  by_cases hp : pdfText = []
  · simp [hp]
  · have hp2 : ¬ pdfText.isEmpty = true := by simpa using hp
    rw [if_neg hp2]
    simp only [List.mem_append, List.mem_flatMap]
    constructor
    · rintro (⟨id, _, ho⟩ | ⟨c2, hc2, ho⟩)
      · have hc : ¬ ((wordRegex cs id).test pdfText = true ∧ idKey id = classKey c) :=
          fun h => idKey_ne_classKey id c h.2
        simp [hc] at ho
      · by_cases hc : (wordRegex cs c2).test pdfText = true ∧ classKey c2 = classKey c
        · simp only [hc, and_self, if_true, List.mem_singleton] at ho
          have hx := (classKey_inj c2 c).mp hc.2
          subst hx
          exact ⟨hp, hc2, hc.1, ho⟩
        · simp [hc] at ho
    · rintro ⟨_, hx, ht, ho⟩
      exact Or.inr ⟨c, hx, by simp [ht, ho]⟩

theorem mem_reportPages (spec : Obj SpecEntry) (files : List Str) (fc : Str → Str)
    (pdfPath pdfText : Str) (kr : Str × PageReport)
    (h : kr ∈ reportPages spec files fc pdfPath pdfText) :
    ∃ pe ∈ pages spec,
      kr = (pe.1, pageReport (caseSensitive spec) files fc pdfPath pdfText pe.1 pe.2) := by
  have h2 := mem_foldl_objSet (fun pe : Str × Expected => pe.1)
    (fun pe => pageReport (caseSensitive spec) files fc pdfPath pdfText pe.1 pe.2)
    (fun _ => False) (pages spec) [] kr (by simpa [reportPages] using h)
  rcases h2 with h2 | ⟨pe, hpe, _, he⟩
  · simp at h2
  · exact ⟨pe, hpe, he⟩

theorem pageReport_found_isSome_id (cs : Bool) (files : List Str) (fc : Str → Str)
    (pdfPath pdfText pageName : Str) (e : Expected) (x : Str) (hx : x ∈ e.ids) :
    (objGet (pageReport cs files fc pdfPath pdfText pageName e).found (idKey x)).isSome
      = true := by
  show (objGet (foundOf cs files fc pdfPath pdfText pageName e) (idKey x)).isSome = true
  rw [found_id cs files fc pdfPath pdfText pageName e x hx]
  rfl

theorem pageReport_found_isSome_class (cs : Bool) (files : List Str) (fc : Str → Str)
    (pdfPath pdfText pageName : Str) (e : Expected) (c : Str) (hc : c ∈ e.classes) :
    (objGet (pageReport cs files fc pdfPath pdfText pageName e).found (classKey c)).isSome
      = true := by
  show (objGet (foundOf cs files fc pdfPath pdfText pageName e) (classKey c)).isSome = true
  rw [found_class cs files fc pdfPath pdfText pageName e c hc]
  rfl

theorem checkFile_kept (dom : Browser.Dom) (specKeys : List Str) (pageSpec : Obj SpecEntry)
    (fdata : Browser.FileData) (report : Obj Browser.PageReport)
    (h : ∀ kr ∈ report, Browser.Kept pageSpec kr) :
    ∀ kr ∈ Browser.checkFile dom specKeys report fdata, Browser.Kept pageSpec kr := by
  unfold Browser.checkFile
  exact checkTargets_kept dom pageSpec fdata _ report h

theorem checked_kept (dom : Browser.Dom) (specKeys : List Str) (pageSpec : Obj SpecEntry)
    (filesData : List Browser.FileData) (report : Obj Browser.PageReport)
    (h : ∀ kr ∈ report, Browser.Kept pageSpec kr) :
    ∀ kr ∈ filesData.foldl (Browser.checkFile dom specKeys) report,
      Browser.Kept pageSpec kr := by
  induction filesData generalizing report with
  | nil => exact h
  | cons fd fds ih =>
    rw [List.foldl_cons]
    exact ih _ (checkFile_kept dom specKeys pageSpec fd report h)

theorem mem_browser_report (dom : Browser.Dom) (pageSpec : Obj SpecEntry)
    (filesData : List Browser.FileData) (kr : Str × Browser.PageReport)
    (h : kr ∈ Browser.report dom pageSpec filesData) :
    ∃ pi, Browser.Kept pageSpec pi ∧
      kr = (pi.1, { pi.2 with
        missingIds := missingOf pi.2.found idKey pi.2.expectedIds
        missingClasses := missingOf pi.2.found classKey pi.2.expectedClasses }) := by
  unfold Browser.report Browser.setMissing at h
  obtain ⟨pi, hpi, he⟩ := List.mem_map.mp h
  exact ⟨pi, checked_kept dom _ pageSpec filesData _ (initReport_kept pageSpec) pi hpi, he.symm⟩

theorem reportPages_isSome (spec : Obj SpecEntry) (files : List Str) (fc : Str → Str)
    (pdfPath pdfText : Str) (ke : Str × SpecEntry) (hin : ke ∈ spec)
    (h1 : ke.1 ≠ "meta".toList) (h2 : ke.1 ≠ "common".toList)
    (h3 : ke.1 ≠ "__proto__".toList) :
    (objGet (reportPages spec files fc pdfPath pdfText) ke.1).isSome = true := by
  obtain ⟨e, he⟩ := Option.isSome_iff_exists.mp (pages_isSome spec ke hin h1 h2 h3)
  have hm := objGet_mem _ _ _ he
  have := objGet_foldl_objSet_isSome (fun pe : Str × Expected => pe.1)
    (fun pe => pageReport (caseSensitive spec) files fc pdfPath pdfText pe.1 pe.2)
    (fun _ => False) (pages spec) [] ke.1 (Or.inr ⟨(ke.1, e), hm, by simp, rfl⟩)
  simpa [reportPages] using this

theorem checkFile_isSome (dom : Browser.Dom) (specKeys : List Str)
    (fdata : Browser.FileData) (report : Obj Browser.PageReport) (k : Str)
    (h : (objGet report k).isSome = true) :
    (objGet (Browser.checkFile dom specKeys report fdata) k).isSome = true := by
  unfold Browser.checkFile
  exact checkTargets_isSome dom fdata _ report k h

theorem browser_report_isSome (dom : Browser.Dom) (pageSpec : Obj SpecEntry)
    (filesData : List Browser.FileData) (ke : Str × SpecEntry) (hin : ke ∈ pageSpec)
    (h1 : ke.1 ≠ "meta".toList) (h2 : ke.1 ≠ "common".toList)
    (h3 : ke.1 ≠ "__proto__".toList) :
    (objGet (Browser.report dom pageSpec filesData) ke.1).isSome = true := by
  have h0 : (objGet (Browser.initReport pageSpec) ke.1).isSome = true := by
    unfold Browser.initReport
    rw [foldl_objAssign (fun kv : Str × SpecEntry => kv.1) _
      (fun kv => kv.1 = "common".toList)]
    exact objGet_foldl_objSet_isSome (fun kv : Str × SpecEntry => kv.1) _
      (fun kv => kv.1 = "common".toList ∨ kv.1 = "__proto__".toList) _ [] ke.1
      (Or.inr ⟨ke, List.mem_filter.mpr ⟨hin, by simpa using h1⟩,
        fun h => h.elim h2 h3, rfl⟩)
  have hf : ∀ (fds : List Browser.FileData) (report : Obj Browser.PageReport),
      (objGet report ke.1).isSome = true →
      (objGet (fds.foldl (Browser.checkFile dom
        ((objKeys pageSpec).filter (fun k => k ≠ "meta".toList))) report) ke.1).isSome
        = true := by
    intro fds
    induction fds with
    | nil => exact fun _ h => h
    | cons fd fds ih =>
      intro report h
      rw [List.foldl_cons]
      exact ih _ (checkFile_isSome dom _ fd report ke.1 h)
  unfold Browser.report Browser.setMissing
  show (objGet (List.map (fun kv : Str × Browser.PageReport => (kv.1, _)) _) ke.1).isSome
    = true
  rw [objGet_map_isSome]
  exact hf filesData _ h0

theorem browser_resolved (dom : Browser.Dom) (pageSpec : Obj SpecEntry) (common : SpecEntry)
    (hc : objGet pageSpec "common".toList = some common)
    (filesData : List Browser.FileData) (kr : Str × Browser.PageReport)
    (h : kr ∈ Browser.report dom pageSpec filesData) :
    Resolved pageSpec common kr.1 kr.2.expectedIds kr.2.expectedClasses := by
  obtain ⟨pi, ⟨h1, h2, ⟨entry, hin, hi, hcl⟩, _, _⟩, rfl⟩ :=
    mem_browser_report dom pageSpec filesData kr h
  have e1 : Browser.commonIds pageSpec = common.ids.getD [] := by
    unfold Browser.commonIds
    rw [hc]
  have e2 : Browser.commonClasses pageSpec = common.classes.getD [] := by
    unfold Browser.commonClasses
    rw [hc]
  show Resolved pageSpec common pi.1 pi.2.expectedIds pi.2.expectedClasses
  rw [hi, hcl, e1, e2]
  refine ⟨h1, h2, ?_, ?_, nodup_arrayFromSet _, nodup_arrayFromSet _, entry, hin, ?_, ?_⟩
  · intro i hi2
    exact (mem_arrayFromSet _ _).mpr (List.mem_append_right _ hi2)
  · intro c hc2
    exact (mem_arrayFromSet _ _).mpr (List.mem_append_right _ hc2)
  · intro i hi2
    exact (mem_arrayFromSet _ _).mpr (List.mem_append_left _ hi2)
  · intro c hc2
    exact (mem_arrayFromSet _ _).mpr (List.mem_append_left _ hc2)

theorem nameMatches_eq (pageName f : Str) :
    nameMatches (toLowerCase pageName) f =
      (toLowerCase (basename f) == toLowerCase pageName ||
        toLowerCase (basename f) == toLowerCase (toLowerCase pageName) ||
        startsWith (toLowerCase (basename f))
          (toLowerCase (replaceFirst ".php".toList [] (toLowerCase pageName)))) := rfl

theorem mem_allHits (cs : Bool) (files : List Str) (fc : Str → Str) (pdfPath pdfText : Str)
    (pageName : Str) (e : Expected) (k : Str) (o : Occurrence) :
    o ∈ allHits cs files fc pdfPath pdfText pageName e k ↔
      (∃ f ∈ candidates files pageName, o ∈ candidateHits cs e fc k f) ∨
      ((candidates files pageName).length = 0 ∧ ∃ f ∈ files, o ∈ wholeHits cs e fc k f) ∨
      o ∈ pdfHits cs e pdfPath pdfText k := by
  unfold allHits
  by_cases hc : (candidates files pageName).length = 0
  · simp only [hc, if_true, List.mem_append, List.mem_flatMap, true_and, or_assoc]
  · simp only [hc, if_false, List.mem_append, List.mem_flatMap, false_and, List.not_mem_nil,
      or_false, false_or]

theorem mem_missingIds (cs : Bool) (files : List Str) (fc : Str → Str) (pdfPath pdfText : Str)
    (pageName : Str) (e : Expected) (x : Str) :
    x ∈ (pageReport cs files fc pdfPath pdfText pageName e).missingIds ↔
      x ∈ e.ids ∧ allHits cs files fc pdfPath pdfText pageName e (idKey x) = [] := by
  show x ∈ missingOf (foundOf cs files fc pdfPath pdfText pageName e) idKey e.ids ↔ _
  rw [missingOf_eq_filter, List.mem_filter]
  constructor
  · rintro ⟨hx, hn⟩
    refine ⟨hx, ?_⟩
    unfold noOccurrence at hn
    rw [found_id cs files fc pdfPath pdfText pageName e x hx] at hn
    simpa using hn
  · rintro ⟨hx, hn⟩
    refine ⟨hx, ?_⟩
    unfold noOccurrence
    rw [found_id cs files fc pdfPath pdfText pageName e x hx, hn]
    rfl

theorem mem_missingClasses (cs : Bool) (files : List Str) (fc : Str → Str)
    (pdfPath pdfText : Str) (pageName : Str) (e : Expected) (c : Str) :
    c ∈ (pageReport cs files fc pdfPath pdfText pageName e).missingClasses ↔
      c ∈ e.classes ∧ allHits cs files fc pdfPath pdfText pageName e (classKey c) = [] := by
  show c ∈ missingOf (foundOf cs files fc pdfPath pdfText pageName e) classKey e.classes ↔ _
  rw [missingOf_eq_filter, List.mem_filter]
  constructor
  · rintro ⟨hx, hn⟩
    refine ⟨hx, ?_⟩
    unfold noOccurrence at hn
    rw [found_class cs files fc pdfPath pdfText pageName e c hx] at hn
    simpa using hn
  · rintro ⟨hx, hn⟩
    refine ⟨hx, ?_⟩
    unfold noOccurrence
    rw [found_class cs files fc pdfPath pdfText pageName e c hx, hn]
    rfl

theorem embeddedCheck_sound (ic : Bool) (c : Str) (prev : Option Char) (line : Str)
    (h : embeddedCheck ic c prev line = true) (a t b : Str) (hl : line = a ++ t ++ b)
    (ht : sameText ic c t = true) :
    attached (lastChar prev a) = true ∨ attached b.head? = true := by
  induction line generalizing prev a with
  | nil =>
    have ha : a = [] := by
      cases a with
      | nil => rfl
      | cons x y => simp at hl
    subst ha
    have htb : t = [] ∧ b = [] := by
      cases t with
      | nil => exact ⟨rfl, by simpa using hl.symm⟩
      | cons x y => simp at hl
    obtain ⟨rfl, rfl⟩ := htb
    have hc : c = [] := by
      cases c with
      | nil => rfl
      | cons x y => simp [sameText] at ht
    subst hc
    simp only [embeddedCheck, occursHere, List.length_nil, List.take_nil, sameText, Bool.not_true,
      Bool.false_or] at h
    exact Or.inl h
  | cons x xs ih =>
    simp only [embeddedCheck, Bool.and_eq_true, Bool.or_eq_true, Bool.not_eq_true'] at h
    obtain ⟨h1, h2⟩ := h
    cases a with
    | nil =>
      have hlen := sameText_length ic c t ht
      have e1 : (x :: xs).take c.length = t := by
        rw [hl, hlen]
        simp
      have e2 : (x :: xs).drop c.length = b := by
        rw [hl, hlen]
        simp
      have ho : occursHere ic c (x :: xs) = true := by
        unfold occursHere
        rw [e1]
        exact ht
      rw [ho, e2] at h1
      rcases h1 with (h1 | h1) | h1
      · simp at h1
      · exact Or.inl h1
      · exact Or.inr h1
    | cons y a =>
      simp only [List.cons_append, List.cons.injEq] at hl
      obtain ⟨rfl, hl2⟩ := hl
      exact ih (some x) h2 a hl2

theorem classAssign_not_embedded (cs : Bool) (c text : Str) (h : ClassAssign cs c text) :
    ¬ EmbeddedOnly cs c text := by
  obtain ⟨a, n, ws1, ws2, q1, v1, s1, t, s2, v2, q2, b, rfl, _, _, _, _, _, hs1, ht, hs2, _, _⟩
    := h
  intro he
  have hsplit : a ++ (n ++ ws1 ++ '=' :: ws2 ++ q1 :: v1 ++ s1 :: t ++ s2 :: v2 ++ [q2]) ++ b =
      (a ++ (n ++ ws1 ++ '=' :: ws2 ++ q1 :: v1) ++ [s1]) ++ t ++ (s2 :: (v2 ++ [q2] ++ b)) := by
    simp
  rcases he _ t _ hsplit ht with h1 | h1
  · rw [lastChar_append] at h1
    simp [lastChar, attached, hs1] at h1
  · simp [attached, hs2] at h1

theorem page_class_not_found (cs : Bool) (files : List Str) (fc : Str → Str)
    (pdfPath pdfText pageName : Str) (e : Expected) (c : Str) (hc : c ∈ e.classes)
    (hlines : ∀ f ∈ candidates files pageName, ∀ line ∈ splitLines (fc f),
      (classRegex cs c).test line = false)
    (hwhole : candidates files pageName = [] → ∀ f ∈ files,
      (classRegex cs c).test (fc f) = false)
    (hpdf : pdfText = [] ∨ (wordRegex cs c).test pdfText = false) :
    objGet (pageReport cs files fc pdfPath pdfText pageName e).found (classKey c) = some [] ∧
      c ∈ (pageReport cs files fc pdfPath pdfText pageName e).missingClasses := by
  have hnil : allHits cs files fc pdfPath pdfText pageName e (classKey c) = [] := by
    rw [List.eq_nil_iff_forall_not_mem]
    intro o ho
    rcases (mem_allHits _ _ _ _ _ _ _ _ _).mp ho with ⟨f, hf, h1⟩ | ⟨h0, f, hf, h1⟩ | h1
    · obtain ⟨_, i, ln, hl, ht, _⟩ := (mem_candidateHits_class _ _ _ _ _ _).mp h1
      have := hlines f hf ln (List.getElem?_mem hl)
      rw [this] at ht
      exact absurd ht (by simp)
    · obtain ⟨_, ht, _⟩ := (mem_wholeHits_class _ _ _ _ _ _).mp h1
      have := hwhole (List.length_eq_zero.mp h0) f hf
      rw [this] at ht
      exact absurd ht (by simp)
    · obtain ⟨hne, _, ht, _⟩ := (mem_pdfHits_class _ _ _ _ _ _).mp h1
      rcases hpdf with hp | hp
      · exact hne hp
      · rw [hp] at ht
        exact absurd ht (by simp)
  refine ⟨?_, (mem_missingClasses _ _ _ _ _ _ _ _).mpr ⟨hc, hnil⟩⟩
  show objGet (foundOf cs files fc pdfPath pdfText pageName e) (classKey c) = some []
  rw [found_class _ _ _ _ _ _ _ _ hc, hnil]

theorem page_id_not_found (cs : Bool) (files : List Str) (fc : Str → Str)
    (pdfPath pdfText pageName : Str) (e : Expected) (x : Str) (hx : x ∈ e.ids)
    (hlines : ∀ f ∈ candidates files pageName, ∀ line ∈ splitLines (fc f),
      (idRegex cs x).test line = false)
    (hwhole : candidates files pageName = [] → ∀ f ∈ files,
      (idRegex cs x).test (fc f) = false)
    (hpdf : pdfText = [] ∨ (wordRegex cs x).test pdfText = false) :
    objGet (pageReport cs files fc pdfPath pdfText pageName e).found (idKey x) = some [] ∧
      x ∈ (pageReport cs files fc pdfPath pdfText pageName e).missingIds := by
  have hnil : allHits cs files fc pdfPath pdfText pageName e (idKey x) = [] := by
    rw [List.eq_nil_iff_forall_not_mem]
    intro o ho
    rcases (mem_allHits _ _ _ _ _ _ _ _ _).mp ho with ⟨f, hf, h1⟩ | ⟨h0, f, hf, h1⟩ | h1
    · obtain ⟨_, i, ln, hl, ht, _⟩ := (mem_candidateHits_id _ _ _ _ _ _).mp h1
      have := hlines f hf ln (List.getElem?_mem hl)
      rw [this] at ht
      exact absurd ht (by simp)
    · obtain ⟨_, ht, _⟩ := (mem_wholeHits_id _ _ _ _ _ _).mp h1
      have := hwhole (List.length_eq_zero.mp h0) f hf
      rw [this] at ht
      exact absurd ht (by simp)
    · obtain ⟨hne, _, ht, _⟩ := (mem_pdfHits_id _ _ _ _ _ _).mp h1
      rcases hpdf with hp | hp
      · exact hne hp
      · rw [hp] at ht
        exact absurd ht (by simp)
  refine ⟨?_, (mem_missingIds _ _ _ _ _ _ _ _).mpr ⟨hx, hnil⟩⟩
  show objGet (foundOf cs files fc pdfPath pdfText pageName e) (idKey x) = some []
  rw [found_id _ _ _ _ _ _ _ _ hx, hnil]

theorem test_false_of_not {re : RegExp} {s : Str} {P : Prop} (hiff : re.test s = true ↔ P)
    (h : ¬ P) : re.test s = false := by
  cases ht : re.test s with
  | false => rfl
  | true => exact absurd (hiff.mp ht) h

theorem idAssign_literal (cs : Bool) (x a b : Str) (q : Char) (hq : isQuote q = true) :
    IdAssign cs x (a ++ "id=".toList ++ q :: x ++ q :: b) :=
  ⟨a, 'i', 'd', [], [], q, x, q, b, by simp, sameChar_refl _ _, sameChar_refl _ _,
    by simp, by simp, hq, hq, sameText_refl _ _⟩

theorem page_id_found (cs : Bool) (files : List Str) (fc : Str → Str)
    (pdfPath pdfText pageName : Str) (e : Expected) (x : Str) (hx : x ∈ e.ids)
    (o : Occurrence)
    (ho : o ∈ allHits cs files fc pdfPath pdfText pageName e (idKey x)) :
    (∃ l, objGet (pageReport cs files fc pdfPath pdfText pageName e).found (idKey x) = some l ∧
      o ∈ l) ∧ x ∉ (pageReport cs files fc pdfPath pdfText pageName e).missingIds := by
  constructor
  · exact ⟨_, found_id _ _ _ _ _ _ _ _ hx, ho⟩
  · intro hm
    have := ((mem_missingIds _ _ _ _ _ _ _ _).mp hm).2
    rw [this] at ho
    simp at ho

theorem page_class_found (cs : Bool) (files : List Str) (fc : Str → Str)
    (pdfPath pdfText pageName : Str) (e : Expected) (c : Str) (hc : c ∈ e.classes)
    (o : Occurrence)
    (ho : o ∈ allHits cs files fc pdfPath pdfText pageName e (classKey c)) :
    (∃ l, objGet (pageReport cs files fc pdfPath pdfText pageName e).found (classKey c)
        = some l ∧ o ∈ l) ∧
      c ∉ (pageReport cs files fc pdfPath pdfText pageName e).missingClasses := by
  constructor
  · exact ⟨_, found_class _ _ _ _ _ _ _ _ hc, ho⟩
  · intro hm
    have := ((mem_missingClasses _ _ _ _ _ _ _ _).mp hm).2
    rw [this] at ho
    simp at ho

theorem candidate_line_hit (cs : Bool) (files : List Str) (fc : Str → Str)
    (pdfPath pdfText pageName : Str) (e : Expected) (x : Str) (hx : x ∈ e.ids)
    (f : Str) (hf : f ∈ candidates files pageName) (i : Nat) (line : Str)
    (hl : (splitLines (fc f))[i]? = some line) (ht : (idRegex cs x).test line = true) :
    ({ file := f, line := i + 1, excerpt := trim line } : Occurrence) ∈
      allHits cs files fc pdfPath pdfText pageName e (idKey x) :=
  (mem_allHits _ _ _ _ _ _ _ _ _).mpr
    (Or.inl ⟨f, hf, (mem_candidateHits_id _ _ _ _ _ _).mpr ⟨hx, i, line, hl, ht, rfl⟩⟩)

theorem not_idAssign_of_test {cs : Bool} {x text : Str}
    (h : (idRegex cs x).test text = false) : ¬ IdAssign cs x text := by
  intro ha
  rw [(idRegex_test_iff cs x text).mpr ha] at h
  exact absurd h (by simp)

theorem not_classAssign_of_test {cs : Bool} {c text : Str}
    (h : (classRegex cs c).test text = false) : ¬ ClassAssign cs c text := by
  intro ha
  rw [(classRegex_test_iff cs c text).mpr ha] at h
  exact absurd h (by simp)

theorem not_wholeWord_of_test {cs : Bool} {x text : Str}
    (h : (wordRegex cs x).test text = false) : ¬ WholeWord cs x text := by
  intro ha
  rw [(wordRegex_test_iff cs x text).mpr ha] at h
  exact absurd h (by simp)

theorem idAssign_other_case (x y a b : Str) (q : Char) (hq : isQuote q = true)
    (hxy : sameText true x y = true) :
    IdAssign false x (a ++ "id=".toList ++ q :: y ++ q :: b) :=
  ⟨a, 'i', 'd', [], [], q, y, q, b, by simp, sameChar_refl _ _, sameChar_refl _ _,
    by simp, by simp, hq, hq, hxy⟩

theorem nodup_objKeys_reportPages (spec : Obj SpecEntry) (files : List Str) (fc : Str → Str)
    (pdfPath pdfText : Str) : (objKeys (reportPages spec files fc pdfPath pdfText)).Nodup := by
  unfold reportPages
  have : ∀ (xs : List (Str × Expected)) (init : Obj PageReport), (objKeys init).Nodup →
      (objKeys (xs.foldl (fun rp pe => objSet rp pe.1
        (pageReport (caseSensitive spec) files fc pdfPath pdfText pe.1 pe.2)) init)).Nodup := by
    intro xs
    induction xs with
    | nil => exact fun _ h => h
    | cons x xs ih =>
      intro init h
      rw [List.foldl_cons]
      exact ih _ (nodup_objKeys_objSet _ _ _ h)
  exact this _ [] (by simp [objKeys])

theorem idAttribute_test (cs : Bool) (x text : Str) (h : IdAttribute cs x text) :
    (attributeRegex cs x).test text = true := by
  obtain ⟨a, n1, n2, ws1, ws2, q1, v, q2, b, rfl, hedge, h1, h2, hws1, hws2, hq1, hq2, hv⟩ := h
  rw [test_iff]
  have hi : (attributeRegex cs x).ignoreCase = !cs := rfl
  rw [hi]
  have hcore : n1 :: n2 :: ws1 ++ '=' :: ws2 ++ q1 :: v ++ [q2] =
      [n1] ++ ([n2] ++ (ws1 ++ (['='] ++ (ws2 ++ ([q1] ++ (v ++ ([q2] ++ []))))))) := by
    simp
  rw [hcore]
  simp only [attributeRegex, seqAll, Re.Matches, matches_litSeq]
  rcases List.eq_nil_or_concat' a with rfl | ⟨a2, p, rfl⟩
  · exact ⟨[], _, b, rfl, [], _, rfl, Or.inl ⟨rfl, rfl⟩, [n1], _, rfl, ⟨n1, rfl, h1⟩,
      [n2], _, rfl, ⟨n2, rfl, h2⟩, ws1, _, rfl, hws1, ['='], _, rfl,
      ⟨'=', rfl, sameChar_refl _ _⟩, ws2, _, rfl, hws2, [q1], _, rfl, ⟨q1, rfl, hq1⟩,
      v, _, rfl, hv, [q2], [], rfl, ⟨q2, rfl, hq2⟩, rfl⟩
  · have hp : (!isNameChar p) = true := by
      simpa [lastChar_append, lastChar, nameEdge] using hedge
    exact ⟨a2, [p] ++ _, b, by simp, [p], _, rfl, Or.inr ⟨p, rfl, hp⟩, [n1], _, rfl,
      ⟨n1, rfl, h1⟩, [n2], _, rfl, ⟨n2, rfl, h2⟩, ws1, _, rfl, hws1, ['='], _, rfl,
      ⟨'=', rfl, sameChar_refl _ _⟩, ws2, _, rfl, hws2, [q1], _, rfl, ⟨q1, rfl, hq1⟩,
      v, _, rfl, hv, [q2], [], rfl, ⟨q2, rfl, hq2⟩, rfl⟩

theorem not_idAttribute_of_test {cs : Bool} {x text : Str}
    (h : (attributeRegex cs x).test text = false) : ¬ IdAttribute cs x text := by
  intro ha
  rw [idAttribute_test cs x text ha] at h
  exact absurd h (by simp)

theorem idAssign_exact (x line : Str) (h : IdAssign true x line) :
    ∃ a ws1 ws2 q1 q2 b,
      line = a ++ "id".toList ++ ws1 ++ '=' :: ws2 ++ q1 :: x ++ q2 :: b ∧
      (∀ c ∈ ws1, isSpace c = true) ∧ (∀ c ∈ ws2, isSpace c = true) ∧
      isQuote q1 = true ∧ isQuote q2 = true := by
  obtain ⟨a, n1, n2, ws1, ws2, q1, v, q2, b, rfl, h1, h2, hws1, hws2, hq1, hq2, hv⟩ := h
  have e1 : n1 = 'i' := by
    simp only [sameChar, Bool.not_true, Bool.false_eq_true, if_false, beq_iff_eq] at h1
    exact h1.symm
  have e2 : n2 = 'd' := by
    simp only [sameChar, Bool.not_true, Bool.false_eq_true, if_false, beq_iff_eq] at h2
    exact h2.symm
  have e3 : x = v := (sameText_exact x v).mp hv
  subst e1 e2 e3
  exact ⟨a, ws1, ws2, q1, q2, b, by simp, hws1, hws2, hq1, hq2⟩

theorem numbered_id_occurrence (cs : Bool) (files : List Str) (fc : Str → Str)
    (pdfPath pdfText pageName : Str) (e : Expected) (x : Str) (o : Occurrence)
    (ho : o ∈ allHits cs files fc pdfPath pdfText pageName e (idKey x)) (hl : o.line ≠ 0) :
    ∃ f ∈ candidates files pageName, ∃ (i : Nat) (line : Str),
      (splitLines (fc f))[i]? = some line ∧
      o = { file := f, line := i + 1, excerpt := trim line } ∧
      (idRegex cs x).test line = true := by
  rcases (mem_allHits _ _ _ _ _ _ _ _ _).mp ho with ⟨f, hf, h1⟩ | ⟨_, f, _, h1⟩ | h1
  · obtain ⟨_, i, ln, hln, ht, ho2⟩ := (mem_candidateHits_id _ _ _ _ _ _).mp h1
    exact ⟨f, hf, i, ln, hln, ho2, ht⟩
  · obtain ⟨_, _, ho2⟩ := (mem_wholeHits_id _ _ _ _ _ _).mp h1
    rw [ho2] at hl
    exact absurd rfl hl
  · obtain ⟨_, _, _, ho2⟩ := (mem_pdfHits_id _ _ _ _ _ _).mp h1
    rw [ho2] at hl
    exact absurd rfl hl

theorem idAssign_of_exact (x a ws1 ws2 b : Str) (q1 q2 : Char)
    (hws1 : ∀ c ∈ ws1, isSpace c = true) (hws2 : ∀ c ∈ ws2, isSpace c = true)
    (hq1 : isQuote q1 = true) (hq2 : isQuote q2 = true) :
    IdAssign true x (a ++ "id".toList ++ ws1 ++ '=' :: ws2 ++ q1 :: x ++ q2 :: b) :=
  ⟨a, 'i', 'd', ws1, ws2, q1, x, q2, b, by simp, sameChar_refl _ _, sameChar_refl _ _,
    hws1, hws2, hq1, hq2, sameText_refl _ _⟩

theorem idAssign_in_line (cs : Bool) (x y line a b : Str) (q : Char) (i : Nat) (content : Str)
    (hq : isQuote q = true) (hline : line = a ++ "id=".toList ++ q :: y ++ q :: b)
    (hl : HasLine content i line)
    (hy : ∀ b2, IdAssign cs x (a ++ "id=".toList ++ q :: y ++ q :: b2)) :
    ∃ codeLine, (splitLines content)[i]? = some codeLine ∧ IdAssign cs x codeLine := by
  obtain ⟨ls, rfl, hls, hi⟩ := hl
  obtain ⟨codeLine, hc, h⟩ := splitLines_joinLines ls hls i line hi
  refine ⟨codeLine, hc, ?_⟩
  rcases h with rfl | rfl
  · rw [hline]
    exact hy b
  · obtain ⟨b2, e⟩ := stripCR_quote_end (a ++ "id=".toList ++ q :: y) b q hq
    have e2 : line = (a ++ "id=".toList ++ q :: y) ++ q :: b := by
      rw [hline]
    rw [e2, e]
    have := hy b2
    simpa using this

theorem mem_idValues (v line : Str) (h : IdAssign true v line)
    (hv : ∀ c ∈ v, notQuote c = true) : v ∈ idValues line := by
  obtain ⟨a, ws1, ws2, q1, q2, b, rfl, hws1, hws2, hq1, hq2⟩ := idAssign_exact v line h
  have e : a ++ "id".toList ++ ws1 ++ '=' :: ws2 ++ q1 :: v ++ q2 :: b =
      a ++ ('i' :: 'd' :: (ws1 ++ '=' :: (ws2 ++ q1 :: (v ++ q2 :: b)))) := by
    simp
  rw [e]
  apply mem_idValues_append
  rw [idValues, valueHere_assign ws1 ws2 v b q1 q2 hws1 hws2 hq1 hq2 hv]
  simp

theorem idAssign_value_prefix (x line : Str) (h : IdAssign true x line) :
    ∃ v, (∀ c ∈ v, notQuote c = true) ∧ IdAssign true v line ∧
      (v = x ∨ v.length < x.length) := by
  rcases quote_prefix x with hx | ⟨v, q, x2, rfl, hv, hq⟩
  · exact ⟨x, hx, h, Or.inl rfl⟩
  · refine ⟨v, hv, ?_, Or.inr (by simp)⟩
    obtain ⟨a, ws1, ws2, q1, q2, b, rfl, hws1, hws2, hq1, hq2⟩ := idAssign_exact _ line h
    have e : a ++ "id".toList ++ ws1 ++ '=' :: ws2 ++ q1 :: (v ++ q :: x2) ++ q2 :: b =
        a ++ "id".toList ++ ws1 ++ '=' :: ws2 ++ q1 :: v ++ q :: (x2 ++ q2 :: b) := by
      simp
    rw [e]
    exact idAssign_of_exact v a ws1 ws2 _ q1 q hws1 hws2 hq1 hq

theorem not_idAssign_of_only (x y line : Str) (hxy : sameText true x y = true) (hne : x ≠ y)
    (honly : ∀ v, (∀ c ∈ v, notQuote c = true) → IdAssign true v line → v = y) :
    ¬ IdAssign true x line := by
  intro h
  obtain ⟨v, hv, ha, hc⟩ := idAssign_value_prefix x line h
  have e := honly v hv ha
  rcases hc with rfl | hlt
  · exact hne e
  · have := sameText_length true x y hxy
    rw [e] at hlt
    omega

end Lemmas

/-! ## The claims -/

/-- Claim C1. In every page report of the command-line checker and of the browser checker,
`missing.ids` is the list of expected ids, in their order, whose entry `id:<id>` of `found` is
empty, and `missing.classes` the list of expected classes whose entry `class:<cls>` is empty;
every expected item is either missing or has at least one occurrence, never both. -/
theorem missing_derived_from_found [CaseTables] :
    (∀ (spec : Obj SpecEntry) (files : List Str) (fc : Str → Str) (pdfPath pdfText : Str)
        (kr : Str × PageReport), kr ∈ reportPages spec files fc pdfPath pdfText →
        MissingDerived kr.2.expectedIds idKey kr.2.found kr.2.missingIds ∧
        MissingDerived kr.2.expectedClasses classKey kr.2.found kr.2.missingClasses) ∧
    (∀ (dom : Browser.Dom) (pageSpec : Obj SpecEntry) (filesData : List Browser.FileData)
        (kr : Str × Browser.PageReport), kr ∈ Browser.report dom pageSpec filesData →
        MissingDerived kr.2.expectedIds idKey kr.2.found kr.2.missingIds ∧
        MissingDerived kr.2.expectedClasses classKey kr.2.found kr.2.missingClasses) := by
  constructor
  · intro spec files fc pdfPath pdfText kr h
    obtain ⟨pe, _, rfl⟩ := mem_reportPages spec files fc pdfPath pdfText kr h
    exact ⟨missingDerived_of _ _ _ (fun x hx => pageReport_found_isSome_id _ _ _ _ _ _ _ x hx),
      missingDerived_of _ _ _ (fun x hx => pageReport_found_isSome_class _ _ _ _ _ _ _ x hx)⟩
  · intro dom pageSpec filesData kr h
    obtain ⟨pi, hk, rfl⟩ := mem_browser_report dom pageSpec filesData kr h
    exact ⟨missingDerived_of _ _ _ hk.2.2.2.1, missingDerived_of _ _ _ hk.2.2.2.2⟩

/-- Claim C1 on the page `Home.php` with a file that holds the id but not the class, for both
checkers. -/
theorem missing_derived_from_found_witness :
    homeReport "<div id=\"logo\">".toList ∈
      reportPages homeSpec ["Home.php".toList] (homeContents "<div id=\"logo\">".toList) [] [] ∧
    (homeReport "<div id=\"logo\">".toList).2.missingIds = [] ∧
    (homeReport "<div id=\"logo\">".toList).2.missingClasses = ["title".toList] ∧
    (MissingDerived (homeReport "<div id=\"logo\">".toList).2.expectedIds idKey
        (homeReport "<div id=\"logo\">".toList).2.found
        (homeReport "<div id=\"logo\">".toList).2.missingIds ∧
      MissingDerived (homeReport "<div id=\"logo\">".toList).2.expectedClasses classKey
        (homeReport "<div id=\"logo\">".toList).2.found
        (homeReport "<div id=\"logo\">".toList).2.missingClasses) ∧
    (∀ kr ∈ Browser.report textDom homeSpec
        [{ name := "Home.php".toList, text := "<div id=\"logo\">".toList }],
      MissingDerived kr.2.expectedIds idKey kr.2.found kr.2.missingIds ∧
      MissingDerived kr.2.expectedClasses classKey kr.2.found kr.2.missingClasses) :=
  ⟨by decide, by decide, by decide,
   missing_derived_from_found.1 homeSpec ["Home.php".toList]
      (homeContents "<div id=\"logo\">".toList) [] []
      (homeReport "<div id=\"logo\">".toList) (by decide),
   fun kr h => missing_derived_from_found.2 textDom homeSpec _ kr h⟩

/-- Claim C2. When the specification has a `common` entry, every page of the report, in the
command-line checker and in the browser checker, has a key other than `meta` and `common`,
its expected ids contain the common ids and its expected classes the common classes, both
lists are free of duplicates and still contain what the page declares; and every key of the
specification other than `meta` and `common` has such a page (but for a key `__proto__`,
which JavaScript does not store as a property). -/
theorem common_merged_into_every_page [CaseTables] (spec : Obj SpecEntry) (common : SpecEntry)
    (hc : objGet spec "common".toList = some common) :
    (∀ (files : List Str) (fc : Str → Str) (pdfPath pdfText : Str),
      (∀ kr ∈ reportPages spec files fc pdfPath pdfText,
        Resolved spec common kr.1 kr.2.expectedIds kr.2.expectedClasses) ∧
      (∀ ke ∈ spec, ke.1 ≠ "meta".toList → ke.1 ≠ "common".toList →
        ke.1 ≠ "__proto__".toList →
        (objGet (reportPages spec files fc pdfPath pdfText) ke.1).isSome = true)) ∧
    (∀ (dom : Browser.Dom) (filesData : List Browser.FileData),
      (∀ kr ∈ Browser.report dom spec filesData,
        Resolved spec common kr.1 kr.2.expectedIds kr.2.expectedClasses) ∧
      (∀ ke ∈ spec, ke.1 ≠ "meta".toList → ke.1 ≠ "common".toList →
        ke.1 ≠ "__proto__".toList →
        (objGet (Browser.report dom spec filesData) ke.1).isSome = true)) := by
  constructor
  · intro files fc pdfPath pdfText
    constructor
    · intro kr h
      obtain ⟨pe, hpe, rfl⟩ := mem_reportPages spec files fc pdfPath pdfText kr h
      exact mem_pages_common spec common hc pe hpe
    · intro ke hin h1 h2 h3
      exact reportPages_isSome spec files fc pdfPath pdfText ke hin h1 h2 h3
  · intro dom filesData
    constructor
    · intro kr h
      exact browser_resolved dom spec common hc filesData kr h
    · intro ke hin h1 h2 h3
      exact browser_report_isSome dom spec filesData ke hin h1 h2 h3

/-- Claim C2 on a specification whose page `Home.php` declares `logo` and whose `common`
entry declares `footer`, `logo` and the class `title`: the page expects `logo`, `footer` and
`title`, and `meta` and `common` are no pages. -/
theorem common_merged_into_every_page_witness :
    objGet commonSpec "common".toList = some
      { ids := some ["footer".toList, "logo".toList], classes := some ["title".toList],
        case_sensitive := false } ∧
    (reportPages commonSpec [] (fun _ => []) [] []).map
        (fun kr => (kr.1, kr.2.expectedIds, kr.2.expectedClasses)) =
      [("Home.php".toList, ["logo".toList, "footer".toList], ["title".toList])] ∧
    (Browser.report textDom commonSpec []).map
        (fun kr => (kr.1, kr.2.expectedIds, kr.2.expectedClasses)) =
      [("Home.php".toList, ["logo".toList, "footer".toList], ["title".toList])] ∧
    (∀ kr ∈ reportPages commonSpec [] (fun _ => []) [] [],
      Resolved commonSpec
        { ids := some ["footer".toList, "logo".toList], classes := some ["title".toList],
          case_sensitive := false } kr.1 kr.2.expectedIds kr.2.expectedClasses) :=
  ⟨rfl, by decide, by decide,
   ((common_merged_into_every_page commonSpec _ rfl).1 [] (fun _ => []) [] []).1⟩

/-- Claim C3, as stated, fails: in the pool `home.php`, `home_old.php` the file `home.php` has
the name of the page key `Home.php` up to case, yet the candidates are both files and not the
files with that name only. -/
theorem exact_name_only_counterexample :
    (∃ f ∈ ["home.php".toList, "home_old.php".toList],
      toLowerCase (basename f) = toLowerCase "Home.php".toList) ∧
    candidates ["home.php".toList, "home_old.php".toList] "Home.php".toList =
      ["home.php".toList, "home_old.php".toList] ∧
    candidates ["home.php".toList, "home_old.php".toList] "Home.php".toList ≠
      ["home.php".toList, "home_old.php".toList].filter
        (fun f => toLowerCase (basename f) == toLowerCase "Home.php".toList) := by
  refine ⟨⟨"home.php".toList, by decide, by decide⟩, by decide, by decide⟩

/-- Claim C3, amended. When a file of the pool has the name of the page key up to case, the
candidates are exactly the files, in pool order, whose lower-cased base name equals the
lower-cased key, or that key lower-cased once more, or starts with the lower-cased key without
its first `.php`, lower-cased once more: the exact rule and the prefix rule are one filter,
and the substring rule is not applied. -/
theorem candidates_of_exact_match [CaseTables] (files : List Str) (pageName : Str)
    (h : ∃ f ∈ files, toLowerCase (basename f) = toLowerCase pageName) :
    candidates files pageName =
      files.filter (fun f =>
        toLowerCase (basename f) == toLowerCase pageName ||
        toLowerCase (basename f) == toLowerCase (toLowerCase pageName) ||
        startsWith (toLowerCase (basename f))
          (toLowerCase (replaceFirst ".php".toList [] (toLowerCase pageName)))) := by
  obtain ⟨f, hf, he⟩ := h
  have hm : nameMatches (toLowerCase pageName) f = true := by
    rw [nameMatches_eq, he]
    simp
  have hne : (files.filter (nameMatches (toLowerCase pageName))).length ≠ 0 := by
    intro h0
    have : f ∈ files.filter (nameMatches (toLowerCase pageName)) :=
      List.mem_filter.mpr ⟨hf, hm⟩
    rw [List.length_eq_zero] at h0
    rw [h0] at this
    simp at this
  unfold candidates
  simp only [hne, if_false]
  exact List.filter_congr (fun g _ => nameMatches_eq pageName g)

/-- The amended claim C3 on the pool `home.php`, `home_old.php` and the page key `Home.php`:
both files are candidates. -/
theorem candidates_of_exact_match_witness :
    (∃ f ∈ ["home.php".toList, "home_old.php".toList],
      toLowerCase (basename f) = toLowerCase "Home.php".toList) ∧
    candidates ["home.php".toList, "home_old.php".toList] "Home.php".toList =
      ["home.php".toList, "home_old.php".toList].filter (fun f =>
        toLowerCase (basename f) == toLowerCase "Home.php".toList ||
        toLowerCase (basename f) == toLowerCase (toLowerCase "Home.php".toList) ||
        startsWith (toLowerCase (basename f))
          (toLowerCase (replaceFirst ".php".toList [] (toLowerCase "Home.php".toList)))) :=
  ⟨⟨"home.php".toList, by decide, by decide⟩,
   candidates_of_exact_match _ _ ⟨"home.php".toList, by decide, by decide⟩⟩

/-- Claim C4 fails on the code at its own witness: on the line `<div class="title">` the
expression of `classRegex` for `title` has no match, in either case mode, nor has it when
`title` is the first or the last token of the value; the page report lists `title` as missing
with an empty entry in `found`. The expression matches only a token that has a white-space
character on both sides inside the quotes. -/
theorem class_at_value_edge_not_found :
    (classRegex false "title".toList).test "<div class=\"title\">".toList = false ∧
    (classRegex true "title".toList).test "<div class=\"title\">".toList = false ∧
    (classRegex false "title".toList).test "<div class=\"title big\">".toList = false ∧
    (classRegex false "title".toList).test "<div class=\"big title\">".toList = false ∧
    (classRegex false "title".toList).test "<div class=\"big title wide\">".toList = true ∧
    reportPages homeSpec ["Home.php".toList] (homeContents "<div class=\"title\">".toList)
      [] [] = [homeReport "<div class=\"title\">".toList] ∧
    (homeReport "<div class=\"title\">".toList).2.matchedFiles = ["Home.php".toList] ∧
    objGet (homeReport "<div class=\"title\">".toList).2.found (classKey "title".toList) =
      some [] ∧
    (homeReport "<div class=\"title\">".toList).2.missingClasses = ["title".toList] := by
  refine ⟨by decide, by decide, by decide, by decide, by decide, by decide, by decide,
    by decide, by decide⟩

/-- Claim C5, as stated, fails: in the line `<p class="article-title x TITLE y">` the name
`title` itself occurs only inside the longer token `article-title`, yet in a run without
`meta` the expression of `classRegex` for `title` has a match on the line, on the token
`TITLE`; the page report has an occurrence for `title`, which is not missing. -/
theorem embedded_class_counterexample :
    EmbeddedOnly true "title".toList "<p class=\"article-title x TITLE y\">".toList ∧
    (classRegex false "title".toList).test "<p class=\"article-title x TITLE y\">".toList
      = true ∧
    reportPages homeSpec ["Home.php".toList]
      (homeContents "<p class=\"article-title x TITLE y\">".toList) [] [] =
      [homeReport "<p class=\"article-title x TITLE y\">".toList] ∧
    objGet (homeReport "<p class=\"article-title x TITLE y\">".toList).2.found
      (classKey "title".toList) =
      some [{ file := "Home.php".toList, line := 1,
              excerpt := "<p class=\"article-title x TITLE y\">".toList }] ∧
    (homeReport "<p class=\"article-title x TITLE y\">".toList).2.missingClasses = [] := by
  refine ⟨embeddedCheck_sound _ _ _ _ (by decide), by decide, by decide, by decide, by decide⟩

/-- Claim C5, amended to occurrences compared as the scan compares letters: up to case, and
letter by letter only when `meta.case_sensitive` is set. When every such occurrence of the
class name in a line is a proper part of a longer token, the expression of `classRegex` has no
match on the line; and when this holds of every line of the candidate files of a page, of the
files the fallback scans as a whole, and the PDF text does not hold the name as a whole word,
the page report has no occurrence for the class and lists it as missing. -/
theorem embedded_class_not_found [CaseTables] (c : Str) :
    (∀ (cs : Bool) (line : Str), EmbeddedOnly cs c line →
      (classRegex cs c).test line = false) ∧
    (∀ (spec : Obj SpecEntry) (files : List Str) (fc : Str → Str) (pdfPath pdfText : Str),
      ∀ kr ∈ reportPages spec files fc pdfPath pdfText, c ∈ kr.2.expectedClasses →
      (∀ f ∈ kr.2.matchedFiles, ∀ line ∈ splitLines (fc f),
        EmbeddedOnly (caseSensitive spec) c line) →
      (kr.2.matchedFiles = [] → ∀ f ∈ files, EmbeddedOnly (caseSensitive spec) c (fc f)) →
      (pdfText = [] ∨ ¬ WholeWord (caseSensitive spec) c pdfText) →
      objGet kr.2.found (classKey c) = some [] ∧ c ∈ kr.2.missingClasses) := by
  have hline : ∀ (cs : Bool) (line : Str), EmbeddedOnly cs c line →
      (classRegex cs c).test line = false := fun cs line he =>
    test_false_of_not (classRegex_test_iff cs c line)
      (fun ha => classAssign_not_embedded cs c line ha he)
  refine ⟨hline, ?_⟩
  intro spec files fc pdfPath pdfText kr hkr hc hlines hwhole hpdf
  obtain ⟨pe, _, rfl⟩ := mem_reportPages spec files fc pdfPath pdfText kr hkr
  refine page_class_not_found _ _ _ _ _ _ _ c hc
    (fun f hf line hl => hline _ line (hlines f hf line hl))
    (fun h0 f hf => hline _ _ (hwhole h0 f hf)) ?_
  rcases hpdf with hp | hp
  · exact Or.inl hp
  · exact Or.inr (test_false_of_not (wordRegex_test_iff _ c pdfText) hp)

/-- The amended claim C5 on scenario C: the page `Home.php` expects the class `title` and its
file holds `class="article-title"`; the line has no match and `title` is missing. -/
theorem embedded_class_not_found_witness :
    EmbeddedOnly false "title".toList "<p class=\"article-title\">".toList ∧
    (classRegex false "title".toList).test "<p class=\"article-title\">".toList = false ∧
    objGet (homeReport "<p class=\"article-title\">".toList).2.found (classKey "title".toList)
      = some [] ∧
    "title".toList ∈ (homeReport "<p class=\"article-title\">".toList).2.missingClasses :=
  ⟨embeddedCheck_sound _ _ _ _ (by decide),
   (embedded_class_not_found "title".toList).1 false _
     (embeddedCheck_sound _ _ _ _ (by decide)),
   (embedded_class_not_found "title".toList).2 homeSpec ["Home.php".toList]
     (homeContents "<p class=\"article-title\">".toList) [] []
     (homeReport "<p class=\"article-title\">".toList) (by decide) (by decide)
     (fun f hf line hl => embeddedCheck_sound _ _ _ _
       ((by decide : ∀ f ∈ (homeReport "<p class=\"article-title\">".toList).2.matchedFiles,
          ∀ line ∈ splitLines (homeContents "<p class=\"article-title\">".toList f),
            embeddedCheck true "title".toList none line = true) f hf line hl))
     (fun h0 => absurd h0 (by decide)) (Or.inl rfl)⟩

/-- Claim C6, as stated, fails in its last part: in a run without `meta` the expression of
`idRegex` for `logo` has a match on the line `<div id="LOGO">`, which holds no assignment of
the text `logo` itself: the value position takes `LOGO` next to `logo`. The page report has an
occurrence for `logo` from that line. -/
theorem id_assignment_counterexample :
    (idRegex false "logo".toList).test "<div id=\"LOGO\">".toList = true ∧
    ¬ IdAssign true "logo".toList "<div id=\"LOGO\">".toList ∧
    reportPages homeSpec ["Home.php".toList] (homeContents "<div id=\"LOGO\">".toList) [] [] =
      [homeReport "<div id=\"LOGO\">".toList] ∧
    objGet (homeReport "<div id=\"LOGO\">".toList).2.found (idKey "logo".toList) =
      some [{ file := "Home.php".toList, line := 1, excerpt := "<div id=\"LOGO\">".toList }] := by
  refine ⟨by decide, not_idAssign_of_test (by decide), by decide, by decide⟩

/-- Claim C6, amended in its last part. The text `escapeRegExp` returns for an id is read by
the pattern grammar as the id itself, taken literally, so the expression of `idRegex` has a
match exactly on the texts that hold an assignment to `id` of that value up to case, and, in a
case-sensitive run, exactly on the texts that hold the letters `id`, an equals sign with
optional white space on both sides, a quote, the id itself and a quote. When the content of a
candidate file of a page is made of lines joined by line feeds and the line of index `i`, from
0, holds `id="X"` or `id='X'` for an expected id `X`, the page report has an occurrence for `X`
with that file and the line number `i + 1`, and `X` is not missing. -/
theorem id_assignment_found [CaseTables] (x : Str) :
    readLiteral (escapeRegExp x) = some x ∧
    (∀ (cs : Bool) (text : Str), (idRegex cs x).test text = true ↔ IdAssign cs x text) ∧
    (∀ text : Str, (idRegex true x).test text = true ↔
      ∃ a ws1 ws2 q1 q2 b,
        text = a ++ "id".toList ++ ws1 ++ '=' :: ws2 ++ q1 :: x ++ q2 :: b ∧
        (∀ c ∈ ws1, isSpace c = true) ∧ (∀ c ∈ ws2, isSpace c = true) ∧
        isQuote q1 = true ∧ isQuote q2 = true) ∧
    (∀ (spec : Obj SpecEntry) (files : List Str) (fc : Str → Str) (pdfPath pdfText : Str),
      ∀ kr ∈ reportPages spec files fc pdfPath pdfText, x ∈ kr.2.expectedIds →
      ∀ f ∈ kr.2.matchedFiles, ∀ (i : Nat) (line a b : Str) (q : Char),
        HasLine (fc f) i line → isQuote q = true →
        line = a ++ "id=".toList ++ q :: x ++ q :: b →
        (∃ l o, objGet kr.2.found (idKey x) = some l ∧ o ∈ l ∧ o.file = f ∧ o.line = i + 1) ∧
        x ∉ kr.2.missingIds) := by
  refine ⟨readLiteral_escapeRegExp x, fun cs text => idRegex_test_iff cs x text, ?_, ?_⟩
  · intro text
    rw [idRegex_test_iff]
    constructor
    · exact idAssign_exact x text
    · rintro ⟨a, ws1, ws2, q1, q2, b, rfl, hws1, hws2, hq1, hq2⟩
      exact idAssign_of_exact x a ws1 ws2 b q1 q2 hws1 hws2 hq1 hq2
  · intro spec files fc pdfPath pdfText kr hkr hx f hf i line a b q hl hq hline
    obtain ⟨pe, _, rfl⟩ := mem_reportPages spec files fc pdfPath pdfText kr hkr
    obtain ⟨codeLine, hc, ha⟩ := idAssign_in_line (caseSensitive spec) x x line a b q i (fc f)
      hq hline hl (fun b2 => idAssign_literal _ x a b2 q hq)
    have ht : (idRegex (caseSensitive spec) x).test codeLine = true :=
      (idRegex_test_iff _ x codeLine).mpr ha
    obtain ⟨⟨l, hfound, ho⟩, hmiss⟩ := page_id_found _ _ _ _ _ _ _ x hx _
      (candidate_line_hit _ _ _ _ _ _ _ x hx f hf i codeLine hc ht)
    exact ⟨⟨l, _, hfound, ho, rfl, rfl⟩, hmiss⟩

/-- The amended claim C6 on the page `Home.php`, which expects the id `logo`, and the file
`Home.php` of three lines whose second line is `<div id="logo">`: the occurrence is on line 2
of the file and no id is missing. An id made of syntax characters is escaped and read back as
itself. -/
theorem id_assignment_found_witness :
    readLiteral (escapeRegExp "a.b*(c)".toList) = some "a.b*(c)".toList ∧
    HasLine (homeContents "<body>\n<div id=\"logo\">\n</body>".toList "Home.php".toList) 1
      "<div id=\"logo\">".toList ∧
    ((∃ l o, objGet (homeReport "<body>\n<div id=\"logo\">\n</body>".toList).2.found
        (idKey "logo".toList) = some l ∧ o ∈ l ∧ o.file = "Home.php".toList ∧ o.line = 1 + 1) ∧
     "logo".toList ∉ (homeReport "<body>\n<div id=\"logo\">\n</body>".toList).2.missingIds) ∧
    objGet (homeReport "<body>\n<div id=\"logo\">\n</body>".toList).2.found
      (idKey "logo".toList) =
      some [{ file := "Home.php".toList, line := 2, excerpt := "<div id=\"logo\">".toList }] ∧
    (homeReport "<body>\n<div id=\"logo\">\n</body>".toList).2.missingIds = [] :=
  ⟨(id_assignment_found "a.b*(c)".toList).1,
   ⟨["<body>".toList, "<div id=\"logo\">".toList, "</body>".toList], by decide, by decide,
     by decide⟩,
   (id_assignment_found "logo".toList).2.2.2 homeSpec ["Home.php".toList]
     (homeContents "<body>\n<div id=\"logo\">\n</body>".toList) [] []
     (homeReport "<body>\n<div id=\"logo\">\n</body>".toList) (by decide) (by decide)
     "Home.php".toList (by decide) 1 "<div id=\"logo\">".toList "<div ".toList ">".toList '"'
     ⟨["<body>".toList, "<div id=\"logo\">".toList, "</body>".toList], by decide, by decide,
       by decide⟩
     (by decide) (by decide),
   by decide, by decide⟩

/-- Claim C7, as stated, fails: in a case-sensitive run, for the expected id `logo` and the
line `<div id="Logo" data-id="logo">`, whose attribute `id` has the value `Logo` and which has
no attribute `id` of the value `logo`, the page report has an occurrence for `logo`, which is
not missing: the expression of `idRegex` has a match on the end of `data-id="logo"`. -/
theorem case_flag_counterexample :
    sameText true "logo".toList "Logo".toList = true ∧
    IdAttribute true "Logo".toList "<div id=\"Logo\" data-id=\"logo\">".toList ∧
    ¬ IdAttribute true "logo".toList "<div id=\"Logo\" data-id=\"logo\">".toList ∧
    reportPages strictSpec ["Home.php".toList]
      (homeContents "<div id=\"Logo\" data-id=\"logo\">".toList) [] [] =
      [strictReport "<div id=\"Logo\" data-id=\"logo\">".toList] ∧
    objGet (strictReport "<div id=\"Logo\" data-id=\"logo\">".toList).2.found
      (idKey "logo".toList) =
      some [{ file := "Home.php".toList, line := 1,
              excerpt := "<div id=\"Logo\" data-id=\"logo\">".toList }] ∧
    (strictReport "<div id=\"Logo\" data-id=\"logo\">".toList).2.missingIds = [] := by
  refine ⟨by decide,
    ⟨"<div ".toList, 'i', 'd', [], [], '"', "Logo".toList, '"', " data-id=\"logo\">".toList,
      by decide, by decide, by decide, by decide, by decide, by decide, by decide, by decide,
      by decide⟩,
    not_idAttribute_of_test (by decide), by decide, by decide, by decide⟩

/-- Claim C7, amended in its second half. Let `Y` differ from an expected id `X` of a page
only in letter case, and let a line of a candidate file hold `id="Y"` or `id='Y'`. When `meta`
is absent or its flag `case_sensitive` is false, the page report has an occurrence for `X`
from that file, and `X` is not missing. When the flag is true, `Y` is other than `X`, every
text `id = "…"` in the lines of the candidate files, also at the end of a longer name, has the
value `Y`, and the PDF text does not hold the word `X`, the page report has no occurrence for
`X` and lists it as missing. -/
theorem case_flag_decides_id [CaseTables] (spec : Obj SpecEntry) (files : List Str)
    (fc : Str → Str) (pdfPath pdfText : Str) (x y : Str) (hxy : sameText true x y = true) :
    ∀ kr ∈ reportPages spec files fc pdfPath pdfText, x ∈ kr.2.expectedIds →
      ∀ f ∈ kr.2.matchedFiles, ∀ (i : Nat) (line a b : Str) (q : Char),
        (splitLines (fc f))[i]? = some line → isQuote q = true →
        line = a ++ "id=".toList ++ q :: y ++ q :: b →
        ((objGet spec "meta".toList = none ∨
            ∃ m, objGet spec "meta".toList = some m ∧ m.case_sensitive = false) →
          (∃ l, objGet kr.2.found (idKey x) = some l ∧
            ({ file := f, line := i + 1, excerpt := trim line } : Occurrence) ∈ l) ∧
          x ∉ kr.2.missingIds) ∧
        ((∃ m, objGet spec "meta".toList = some m ∧ m.case_sensitive = true) →
          x ≠ y →
          (∀ g ∈ kr.2.matchedFiles, ∀ ln ∈ splitLines (fc g), ∀ v : Str,
            (∀ c ∈ v, notQuote c = true) → IdAssign true v ln → v = y) →
          (pdfText = [] ∨ ¬ WholeWord true x pdfText) →
          objGet kr.2.found (idKey x) = some [] ∧ x ∈ kr.2.missingIds) := by
  intro kr hkr hx f hf i line a b q hl hq hline
  obtain ⟨pe, _, rfl⟩ := mem_reportPages spec files fc pdfPath pdfText kr hkr
  constructor
  · intro hflag
    have hcs : caseSensitive spec = false := by
      unfold caseSensitive
      rcases hflag with h | ⟨m, h, hm⟩
      · rw [h]
      · rw [h]; exact hm
    have ht : (idRegex (caseSensitive spec) x).test line = true := by
      rw [idRegex_test_iff, hline, hcs]
      exact idAssign_other_case x y a b q hq hxy
    exact page_id_found _ _ _ _ _ _ _ x hx _
      (candidate_line_hit _ _ _ _ _ _ _ x hx f hf i line hl ht)
  · rintro ⟨m, h, hm⟩ hne honly hpdf
    have hcs : caseSensitive spec = true := by
      unfold caseSensitive
      rw [h]; exact hm
    rw [hcs]
    rw [hcs] at hf honly
    refine page_id_not_found true _ _ _ _ _ _ x hx
      (fun g hg ln hln => test_false_of_not (idRegex_test_iff true x ln)
        (not_idAssign_of_only x y ln hxy hne (honly g hg ln hln)))
      (fun h0 => ?_) ?_
    · have hf2 : f ∈ candidates files pe.1 := hf
      rw [h0] at hf2
      exact absurd hf2 (List.not_mem_nil _)
    · rcases hpdf with hp | hp
      · exact Or.inl hp
      · exact Or.inr (test_false_of_not (wordRegex_test_iff true x pdfText) hp)

/-- The amended claim C7 on scenario B: the page expects the id `logo` and the second line of
its file is `<div id="Logo">`. Without `meta` no id is missing; with `meta.case_sensitive` set
`logo` is missing. -/
theorem case_flag_decides_id_witness :
    sameText true "logo".toList "Logo".toList = true ∧
    (homeReport "<body>\n<div id=\"Logo\">".toList).2.missingIds = [] ∧
    (strictReport "<body>\n<div id=\"Logo\">".toList).2.missingIds = ["logo".toList] ∧
    ((∃ l, objGet (homeReport "<body>\n<div id=\"Logo\">".toList).2.found (idKey "logo".toList)
        = some l ∧
      ({ file := "Home.php".toList, line := 1 + 1, excerpt := trim "<div id=\"Logo\">".toList }
        : Occurrence) ∈ l) ∧
      "logo".toList ∉ (homeReport "<body>\n<div id=\"Logo\">".toList).2.missingIds) ∧
    (objGet (strictReport "<body>\n<div id=\"Logo\">".toList).2.found (idKey "logo".toList)
        = some [] ∧
      "logo".toList ∈ (strictReport "<body>\n<div id=\"Logo\">".toList).2.missingIds) :=
  ⟨by decide, by decide, by decide,
   (case_flag_decides_id homeSpec ["Home.php".toList]
      (homeContents "<body>\n<div id=\"Logo\">".toList) [] [] "logo".toList "Logo".toList
      (by decide) (homeReport "<body>\n<div id=\"Logo\">".toList) (by decide) (by decide)
      "Home.php".toList (by decide) 1 "<div id=\"Logo\">".toList "<div ".toList ">".toList '"'
      (by decide) (by decide) (by decide)).1 (Or.inl rfl),
   (case_flag_decides_id strictSpec ["Home.php".toList]
      (homeContents "<body>\n<div id=\"Logo\">".toList) [] [] "logo".toList "Logo".toList
      (by decide) (strictReport "<body>\n<div id=\"Logo\">".toList) (by decide) (by decide)
      "Home.php".toList (by decide) 1 "<div id=\"Logo\">".toList "<div ".toList ">".toList '"'
      (by decide) (by decide) (by decide)).2
      ⟨_, rfl, rfl⟩ (by decide)
      (fun g hg ln hl v hv ha =>
        (by decide : ∀ g ∈ (strictReport "<body>\n<div id=\"Logo\">".toList).2.matchedFiles,
          ∀ ln ∈ splitLines (homeContents "<body>\n<div id=\"Logo\">".toList g),
            ∀ v ∈ idValues ln, v = "Logo".toList) g hg ln hl v (mem_idValues v ln ha hv))
      (Or.inl rfl)⟩

/-- The part of claim C8 on ids holds: when no file matches the page by name, every file of
the pool whose content holds `id="X"` or `id='X'` for an expected id `X` gives an occurrence
naming the file, and `X` is not missing. -/
theorem fallback_scan_finds_id [CaseTables] (x : Str) (spec : Obj SpecEntry) (files : List Str)
    (fc : Str → Str) (pdfPath pdfText : Str) :
    ∀ kr ∈ reportPages spec files fc pdfPath pdfText, kr.2.matchedFiles = [] →
      x ∈ kr.2.expectedIds → ∀ f ∈ files, ∀ (a b : Str) (q : Char), isQuote q = true →
      fc f = a ++ "id=".toList ++ q :: x ++ q :: b →
      (∃ l, objGet kr.2.found (idKey x) = some l ∧ fallbackOccurrence f ∈ l) ∧
      x ∉ kr.2.missingIds := by
  intro kr hkr h0 hx f hf a b q hq hcontent
  obtain ⟨pe, _, rfl⟩ := mem_reportPages spec files fc pdfPath pdfText kr hkr
  have ht : (idRegex (caseSensitive spec) x).test (fc f) = true := by
    rw [idRegex_test_iff, hcontent]
    exact idAssign_literal _ x a b q hq
  have h0b : (candidates files pe.1).length = 0 := List.length_eq_zero.mpr h0
  exact page_id_found _ _ _ _ _ _ _ x hx _
    ((mem_allHits _ _ _ _ _ _ _ _ _).mpr
      (Or.inr (Or.inl ⟨h0b, f, hf, (mem_wholeHits_id _ _ _ _ _ _).mpr ⟨hx, ht, rfl⟩⟩)))

/-- Claim C8 fails on the code for classes: the page `Home.php` expects the class `title`, no
file of the pool `misc.html` matches the page by name, and the content of `misc.html` holds
`class="title"`; the fallback scan records no occurrence and `title` is missing. With
`id="logo"` in the same file the id is found. -/
theorem fallback_scan_misses_class :
    candidates ["misc.html".toList] "Home.php".toList = [] ∧
    reportPages homeSpec ["misc.html".toList]
      (miscContents "<div id=\"logo\" class=\"title\">".toList) [] [] =
      [miscReport "<div id=\"logo\" class=\"title\">".toList] ∧
    (classRegex false "title".toList).test
      "<div id=\"logo\" class=\"title\">".toList = false ∧
    objGet (miscReport "<div id=\"logo\" class=\"title\">".toList).2.found
      (classKey "title".toList) = some [] ∧
    (miscReport "<div id=\"logo\" class=\"title\">".toList).2.missingClasses
      = ["title".toList] ∧
    objGet (miscReport "<div id=\"logo\" class=\"title\">".toList).2.found
      (idKey "logo".toList) = some [fallbackOccurrence "misc.html".toList] ∧
    (miscReport "<div id=\"logo\" class=\"title\">".toList).2.missingIds = [] := by
  refine ⟨by decide, by decide, by decide, by decide, by decide, by decide, by decide⟩

/-- Claim C9. When the PDF text is not empty and holds an expected id or class of a page as a
whole word (letters compared up to case unless the run is case sensitive), the page report has
for it the occurrence with the PDF path as file and line 0, and the item is not missing,
whatever the pool of markup files; a page without a missing item has no entry in the
summary. -/
theorem pdf_word_found [CaseTables] (spec : Obj SpecEntry) (files : List Str) (fc : Str → Str)
    (pdfPath pdfText : Str) (hpdf : pdfText ≠ []) :
    ∀ kr ∈ reportPages spec files fc pdfPath pdfText,
      (∀ x ∈ kr.2.expectedIds, WholeWord (caseSensitive spec) x pdfText →
        (∃ l, objGet kr.2.found (idKey x) = some l ∧
          ({ file := pdfPath, line := 0, excerpt := "found in PDF text".toList } : Occurrence)
            ∈ l) ∧
        x ∉ kr.2.missingIds) ∧
      (∀ c ∈ kr.2.expectedClasses, WholeWord (caseSensitive spec) c pdfText →
        (∃ l, objGet kr.2.found (classKey c) = some l ∧
          ({ file := pdfPath, line := 0, excerpt := "found in PDF text".toList } : Occurrence)
            ∈ l) ∧
        c ∉ kr.2.missingClasses) ∧
      (kr.2.missingIds = [] → kr.2.missingClasses = [] →
        objGet (summary (reportPages spec files fc pdfPath pdfText)) kr.1 = none) := by
  intro kr hkr
  refine ⟨?_, ?_, fun h1 h2 =>
    summary_none _ (nodup_objKeys_reportPages spec files fc pdfPath pdfText) kr hkr h1 h2⟩
  · obtain ⟨pe, _, rfl⟩ := mem_reportPages spec files fc pdfPath pdfText kr hkr
    intro x hx hw
    exact page_id_found _ _ _ _ _ _ _ x hx _
      ((mem_allHits _ _ _ _ _ _ _ _ _).mpr (Or.inr (Or.inr
        ((mem_pdfHits_id _ _ _ _ _ _).mpr
          ⟨hpdf, hx, (wordRegex_test_iff _ x pdfText).mpr hw, rfl⟩))))
  · obtain ⟨pe, _, rfl⟩ := mem_reportPages spec files fc pdfPath pdfText kr hkr
    intro c hc hw
    exact page_class_found _ _ _ _ _ _ _ c hc _
      ((mem_allHits _ _ _ _ _ _ _ _ _).mpr (Or.inr (Or.inr
        ((mem_pdfHits_class _ _ _ _ _ _).mpr
          ⟨hpdf, hc, (wordRegex_test_iff _ c pdfText).mpr hw, rfl⟩))))

/-- Claim C9 on scenario E: the page `Tickets.php` expects the id `tickets`, the pool is empty
and the PDF text holds the word `tickets`; the id is found in the PDF, nothing is missing and
the summary is empty. -/
theorem pdf_word_found_witness :
    "buy tickets now".toList ≠ [] ∧
    WholeWord false "tickets".toList "buy tickets now".toList ∧
    reportPages ticketsSpec [] (fun _ => []) "doc.pdf".toList "buy tickets now".toList =
      [("Tickets.php".toList,
        { expectedIds := ["tickets".toList], expectedClasses := [],
          found := [("id:tickets".toList,
            [{ file := "doc.pdf".toList, line := 0, excerpt := "found in PDF text".toList }])],
          missingIds := [], missingClasses := [], matchedFiles := [] })] ∧
    summary (reportPages ticketsSpec [] (fun _ => []) "doc.pdf".toList
      "buy tickets now".toList) = [] ∧
    (∀ kr ∈ reportPages ticketsSpec [] (fun _ => []) "doc.pdf".toList
        "buy tickets now".toList,
      ∀ x ∈ kr.2.expectedIds, WholeWord (caseSensitive ticketsSpec) x "buy tickets now".toList →
        (∃ l, objGet kr.2.found (idKey x) = some l ∧
          ({ file := "doc.pdf".toList, line := 0, excerpt := "found in PDF text".toList }
            : Occurrence) ∈ l) ∧
        x ∉ kr.2.missingIds) :=
  ⟨by decide,
   ⟨"buy ".toList, "tickets".toList, " now".toList, by decide, by decide, by decide,
     by decide⟩,
   by decide, by decide,
   fun kr hkr => (pdf_word_found ticketsSpec [] (fun _ => []) "doc.pdf".toList
     "buy tickets now".toList (by decide) kr hkr).1⟩

/-- Claim C10, as stated, fails for the fallback scan: no file of the pool `misc.html` matches
the page `Home.php` by name, the only assignment `id="logo"` of `misc.html` is broken across a
line feed, so that no line of the file holds it, and yet the report has an occurrence for
`logo` from `misc.html`; likewise for a class value that spans line feeds. -/
theorem broken_assignment_counterexample :
    candidates ["misc.html".toList] "Home.php".toList = [] ∧
    reportPages homeSpec ["misc.html".toList] (miscContents "<div id=\n\"logo\">".toList)
      [] [] = [miscReport "<div id=\n\"logo\">".toList] ∧
    splitLines "<div id=\n\"logo\">".toList = ["<div id=".toList, "\"logo\">".toList] ∧
    (∀ line ∈ splitLines "<div id=\n\"logo\">".toList,
      (idRegex false "logo".toList).test line = false) ∧
    objGet (miscReport "<div id=\n\"logo\">".toList).2.found (idKey "logo".toList) =
      some [{ file := "misc.html".toList, line := 0,
              excerpt := "found in file (no line info)".toList }] ∧
    (∀ line ∈ splitLines "<p class=\"big\ntitle\nwide\">".toList,
      (classRegex false "title".toList).test line = false) ∧
    objGet (miscReport "<p class=\"big\ntitle\nwide\">".toList).2.found
        (classKey "title".toList) =
      some [{ file := "misc.html".toList, line := 0,
              excerpt := "found in file (no line info)".toList }] := by
  refine ⟨by decide, by decide, by decide, by decide, by decide, by decide, by decide⟩

/-- Claim C10, amended to the files scanned as candidates. When a file matches a page by name
and no line of it holds a whole assignment to `id` of an expected id `X` (the only one being
broken across a line feed), the line-by-line scan records no occurrence for `X` from that
file: an occurrence for `X` that names the file can only be the record of the PDF scan. The
same holds for an expected class and the class attribute. -/
theorem broken_assignment_not_found_in_candidate [CaseTables] (spec : Obj SpecEntry)
    (files : List Str) (fc : Str → Str) (pdfPath pdfText : Str) :
    ∀ kr ∈ reportPages spec files fc pdfPath pdfText, ∀ f ∈ kr.2.matchedFiles,
      (∀ x ∈ kr.2.expectedIds,
        (∀ line ∈ splitLines (fc f), ¬ IdAssign (caseSensitive spec) x line) →
        ∀ l, objGet kr.2.found (idKey x) = some l → ∀ o ∈ l, o.file = f →
          o = { file := pdfPath, line := 0, excerpt := "found in PDF text".toList }) ∧
      (∀ c ∈ kr.2.expectedClasses,
        (∀ line ∈ splitLines (fc f), ¬ ClassAssign (caseSensitive spec) c line) →
        ∀ l, objGet kr.2.found (classKey c) = some l → ∀ o ∈ l, o.file = f →
          o = { file := pdfPath, line := 0, excerpt := "found in PDF text".toList }) := by
  intro kr hkr f hf
  obtain ⟨pe, _, rfl⟩ := mem_reportPages spec files fc pdfPath pdfText kr hkr
  have hne : (candidates files pe.1).length ≠ 0 := by
    intro h0
    rw [List.length_eq_zero] at h0
    have hf2 : f ∈ candidates files pe.1 := hf
    rw [h0] at hf2
    simp at hf2
  constructor
  · intro x hx hlines l hl o ho hfile
    have hl2 : objGet (foundOf (caseSensitive spec) files fc pdfPath pdfText pe.1 pe.2)
        (idKey x) = some l := hl
    rw [found_id _ _ _ _ _ _ _ _ hx, Option.some.injEq] at hl2
    subst hl2
    rcases (mem_allHits _ _ _ _ _ _ _ _ _).mp ho with ⟨g, _, h1⟩ | ⟨h0, _⟩ | h1
    · obtain ⟨_, i, ln, hln, ht, rfl⟩ := (mem_candidateHits_id _ _ _ _ _ _).mp h1
      have hg : g = f := hfile
      subst hg
      exact absurd ((idRegex_test_iff _ x ln).mp ht) (hlines ln (List.getElem?_mem hln))
    · exact absurd h0 hne
    · exact ((mem_pdfHits_id _ _ _ _ _ _).mp h1).2.2.2
  · intro c hc hlines l hl o ho hfile
    have hl2 : objGet (foundOf (caseSensitive spec) files fc pdfPath pdfText pe.1 pe.2)
        (classKey c) = some l := hl
    rw [found_class _ _ _ _ _ _ _ _ hc, Option.some.injEq] at hl2
    subst hl2
    rcases (mem_allHits _ _ _ _ _ _ _ _ _).mp ho with ⟨g, _, h1⟩ | ⟨h0, _⟩ | h1
    · obtain ⟨_, i, ln, hln, ht, rfl⟩ := (mem_candidateHits_class _ _ _ _ _ _).mp h1
      have hg : g = f := hfile
      subst hg
      exact absurd ((classRegex_test_iff _ c ln).mp ht) (hlines ln (List.getElem?_mem hln))
    · exact absurd h0 hne
    · exact ((mem_pdfHits_class _ _ _ _ _ _).mp h1).2.2.2

/-- The amended claim C10 on the page `Home.php` and its file `Home.php` whose only
assignment `id="logo"` is broken across a line feed: no line holds the assignment, the entry
of `logo` in `found` is empty and `logo` is missing. -/
theorem broken_assignment_not_found_in_candidate_witness :
    (∀ line ∈ splitLines (homeContents "<div id=\n\"logo\">".toList "Home.php".toList),
      ¬ IdAssign (caseSensitive homeSpec) "logo".toList line) ∧
    objGet (homeReport "<div id=\n\"logo\">".toList).2.found (idKey "logo".toList) = some [] ∧
    (homeReport "<div id=\n\"logo\">".toList).2.missingIds = ["logo".toList] ∧
    (∀ l, objGet (homeReport "<div id=\n\"logo\">".toList).2.found (idKey "logo".toList)
        = some l → ∀ o ∈ l, o.file = "Home.php".toList →
      o = { file := [], line := 0, excerpt := "found in PDF text".toList }) :=
  ⟨fun line hl => not_idAssign_of_test
      ((by decide : ∀ line ∈ splitLines
          (homeContents "<div id=\n\"logo\">".toList "Home.php".toList),
        (idRegex (caseSensitive homeSpec) "logo".toList).test line = false) line hl),
   by decide, by decide,
   ((broken_assignment_not_found_in_candidate homeSpec ["Home.php".toList]
      (homeContents "<div id=\n\"logo\">".toList) [] []
      (homeReport "<div id=\n\"logo\">".toList) (by decide)
      "Home.php".toList (by decide)).1 "logo".toList (by decide)
      (fun line hl => not_idAssign_of_test
        ((by decide : ∀ line ∈ splitLines
            (homeContents "<div id=\n\"logo\">".toList "Home.php".toList),
          (idRegex (caseSensitive homeSpec) "logo".toList).test line = false) line hl)))⟩

/-- Claim C11, as stated, fails: in a case-sensitive run the expression of `idRegex` for
`logo` has a match on lines whose only attribute is `data-id="logo"`, `grid="logo"` or
`valid="logo"`, none of which holds an attribute named `id`, and the page report then has an
occurrence for `logo`, which is not missing; and in the default run the expression has a match
on `id="LOGO"`, a line without an attribute `id` of the value `logo` itself. -/
theorem id_scan_sound_counterexample :
    (idRegex true "logo".toList).test "<div data-id=\"logo\">".toList = true ∧
    ¬ IdAttribute true "logo".toList "<div data-id=\"logo\">".toList ∧
    ¬ IdAttribute false "logo".toList "<div data-id=\"logo\">".toList ∧
    (idRegex true "logo".toList).test "<div grid=\"logo\">".toList = true ∧
    ¬ IdAttribute false "logo".toList "<div grid=\"logo\">".toList ∧
    (idRegex true "logo".toList).test "<form valid=\"logo\">".toList = true ∧
    ¬ IdAttribute false "logo".toList "<form valid=\"logo\">".toList ∧
    reportPages strictSpec ["Home.php".toList]
      (homeContents "<div data-id=\"logo\">".toList) [] [] =
      [strictReport "<div data-id=\"logo\">".toList] ∧
    objGet (strictReport "<div data-id=\"logo\">".toList).2.found (idKey "logo".toList) =
      some [{ file := "Home.php".toList, line := 1,
              excerpt := "<div data-id=\"logo\">".toList }] ∧
    (strictReport "<div data-id=\"logo\">".toList).2.missingIds = [] ∧
    (idRegex false "logo".toList).test "<div id=\"LOGO\">".toList = true ∧
    ¬ IdAttribute true "logo".toList "<div id=\"LOGO\">".toList := by
  refine ⟨by decide, not_idAttribute_of_test (by decide), not_idAttribute_of_test (by decide),
    by decide, not_idAttribute_of_test (by decide), by decide,
    not_idAttribute_of_test (by decide), by decide, by decide, by decide, by decide,
    not_idAttribute_of_test (by decide)⟩

/-- Claim C11, amended to what a match tells. When the expression of `idRegex` for an id `X`
has a match on a text, the text holds the letters `id`, an equals sign with optional white
space on both sides, a quote, a value equal to `X` up to case and a quote; in a case-sensitive
run the letters are `id` and the value is `X` itself. Every occurrence with a line number that
a page report has for an expected id `X` comes from a line of a candidate file that holds such
a text. Nothing is said of what stands before the letters `id`. -/
theorem id_match_holds_assignment_text [CaseTables] (x : Str) :
    (∀ (cs : Bool) (text : Str), (idRegex cs x).test text = true → IdAssign cs x text) ∧
    (∀ text : Str, (idRegex true x).test text = true →
      ∃ a ws1 ws2 q1 q2 b,
        text = a ++ "id".toList ++ ws1 ++ '=' :: ws2 ++ q1 :: x ++ q2 :: b ∧
        (∀ c ∈ ws1, isSpace c = true) ∧ (∀ c ∈ ws2, isSpace c = true) ∧
        isQuote q1 = true ∧ isQuote q2 = true) ∧
    (∀ (spec : Obj SpecEntry) (files : List Str) (fc : Str → Str) (pdfPath pdfText : Str),
      ∀ kr ∈ reportPages spec files fc pdfPath pdfText, x ∈ kr.2.expectedIds →
      ∀ l, objGet kr.2.found (idKey x) = some l → ∀ o ∈ l, o.line ≠ 0 →
        ∃ f ∈ kr.2.matchedFiles, ∃ (i : Nat) (line : Str),
          (splitLines (fc f))[i]? = some line ∧
          o = { file := f, line := i + 1, excerpt := trim line } ∧
          IdAssign (caseSensitive spec) x line) := by
  refine ⟨fun cs text h => (idRegex_test_iff cs x text).mp h,
    fun text h => idAssign_exact x text ((idRegex_test_iff true x text).mp h), ?_⟩
  intro spec files fc pdfPath pdfText kr hkr hx l hl o ho hline
  obtain ⟨pe, _, rfl⟩ := mem_reportPages spec files fc pdfPath pdfText kr hkr
  have hl2 : objGet (foundOf (caseSensitive spec) files fc pdfPath pdfText pe.1 pe.2)
      (idKey x) = some l := hl
  rw [found_id _ _ _ _ _ _ _ _ hx, Option.some.injEq] at hl2
  subst hl2
  obtain ⟨f, hf, i, line, hln, ho2, ht⟩ :=
    numbered_id_occurrence _ _ _ _ _ _ _ x o ho hline
  exact ⟨f, hf, i, line, hln, ho2, (idRegex_test_iff _ x line).mp ht⟩

/-- The amended claim C11 on the page `Home.php` whose file holds `<div id="logo">` on its
second line: the line has a match, it holds the assignment text, and the occurrence on line 2
comes from that line of the candidate `Home.php`. -/
theorem id_match_holds_assignment_text_witness :
    (idRegex true "logo".toList).test "<div id=\"logo\">".toList = true ∧
    IdAssign true "logo".toList "<div id=\"logo\">".toList ∧
    objGet (homeReport "<body>\n<div id=\"logo\">".toList).2.found (idKey "logo".toList) =
      some [{ file := "Home.php".toList, line := 2, excerpt := "<div id=\"logo\">".toList }] ∧
    (∃ f ∈ (homeReport "<body>\n<div id=\"logo\">".toList).2.matchedFiles,
      ∃ (i : Nat) (line : Str),
      (splitLines (homeContents "<body>\n<div id=\"logo\">".toList f))[i]? = some line ∧
      ({ file := "Home.php".toList, line := 2, excerpt := "<div id=\"logo\">".toList }
        : Occurrence) = { file := f, line := i + 1, excerpt := trim line } ∧
      IdAssign (caseSensitive homeSpec) "logo".toList line) :=
  ⟨by decide,
   (id_match_holds_assignment_text "logo".toList).1 true _ (by decide),
   by decide,
   (id_match_holds_assignment_text "logo".toList).2.2 homeSpec ["Home.php".toList]
     (homeContents "<body>\n<div id=\"logo\">".toList) [] []
     (homeReport "<body>\n<div id=\"logo\">".toList) (by decide) (by decide)
     [{ file := "Home.php".toList, line := 2, excerpt := "<div id=\"logo\">".toList }]
     (by decide)
     { file := "Home.php".toList, line := 2, excerpt := "<div id=\"logo\">".toList }
     (by decide) (by decide)⟩

end IdClass
